import Mathlib

/-!
# Verification of the docassemble-mcp corpus index (`DocassembleIndex`)

A shallow embedding of the search / citation core of the repository
(`DocassembleIndex`: ingestion, metadata extraction, keyword index,
line-scoring search with windowing and deduplication, glob filtering,
and the citation factory), together with theorems settling the frozen
claims about it.

Strings are modelled as `List Char` (`Str`).  JavaScript `toLowerCase`,
`includes`, `startsWith`, `split` and `Array.prototype.slice` are
modelled by executable functions below.  The small regular expressions
the code builds dynamically (`\bterm\b` word-boundary matchers, the
glob translations, and the keyword matchers) are modelled by a token
matcher (`RTok` / `rmatch`) whose tokens cover exactly the constructs
those regexes contain.  Scores are rationals (JS numbers, whose
floating-point rounding is immaterial at the small values involved).
-/

/-- A JavaScript string, modelled as its list of characters. -/
abbrev Str := List Char

/-- Turn a Lean string literal into the `Str` model. -/
def str (s : String) : Str := s.data

/-- JS `\w` word character: `[A-Za-z0-9_]`. -/
def isWordChar (c : Char) : Bool :=
  (('a' ≤ c && c ≤ 'z') || ('A' ≤ c && c ≤ 'Z') || ('0' ≤ c && c ≤ '9') || c = '_')

/-- JS `\s`-style whitespace character (ASCII fragment). -/
def isWsChar (c : Char) : Bool :=
  (c = ' ' || c = '\t' || c = '\n' || c = '\r')

/-- JS `String.prototype.toLowerCase` (ASCII fragment). -/
def lowerStr (s : Str) : Str := s.map Char.toLower

/-- `isPre p s`: `p` is a prefix of `s` (JS `startsWith`). -/
def isPre : Str → Str → Bool
  | [], _ => true
  | _ :: _, [] => false
  | c :: p, d :: s => c = d && isPre p s

/-- JS `hay.includes(needle)`: `needle` occurs as a contiguous substring. -/
def jsIncludes (hay needle : Str) : Bool :=
  match hay with
  | [] => isPre needle []
  | _ :: t => isPre needle hay || jsIncludes t needle

/-- Split on single whitespace characters (empties kept; the code filters
them out afterwards, which makes this equal to splitting on `/\s+/`). -/
def splitWsAux : Str → Str → List Str
  | [], acc => [acc.reverse]
  | c :: t, acc =>
    if isWsChar c then acc.reverse :: splitWsAux t [] else splitWsAux t (c :: acc)

/-- JS `content.split('\n')` (empties kept). -/
def splitOnNlAux : Str → Str → List Str
  | [], acc => [acc.reverse]
  | c :: t, acc =>
    if c = '\n' then acc.reverse :: splitOnNlAux t [] else splitOnNlAux t (c :: acc)

/-- JS `Array.prototype.join(sep)`. -/
def joinWith (sep : Str) : List Str → Str
  | [] => []
  | [x] => x
  | x :: xs => x ++ sep ++ joinWith sep xs

/-- Strip whitespace from both ends (JS `String.prototype.trim`). -/
def trimStr (s : Str) : Str :=
  ((s.dropWhile isWsChar).reverse.dropWhile isWsChar).reverse

/-- Normalized index for `Array.prototype.slice`: negative indices count
from the end, and everything is clamped to `[0, len]`. -/
def jsSliceIdx (len : Nat) (i : Int) : Nat :=
  if i < 0 then (max ((len : Int) + i) 0).toNat else min i.toNat len

/-- JS `Array.prototype.slice(s, e)`. -/
def jsSlice (l : List α) (s e : Int) : List α :=
  (l.take (jsSliceIdx l.length e)).drop (jsSliceIdx l.length s)

/-- Tokens of the small dynamic regexes the code builds: literal
characters, `.` (any char but a line terminator), `\s+`, `\b`, and the
`[^/]*` produced by the glob translation. -/
inductive RTok where
  | lit (c : Char)
  | anyc
  | wsPlus
  | wordB
  | starNonSep
deriving DecidableEq, Repr

/-- Word-character test seen through an optional character (off-string
positions are non-word). -/
def isWordOpt : Option Char → Bool
  | some c => isWordChar c
  | none => false

/-- Head character of a string, if any. -/
def headChar : Str → Option Char
  | [] => none
  | c :: _ => some c

/-- `rmatch ts prev s`: some way of consuming a prefix of `s` matches the
token list `ts`, where `prev` is the character just before the current
position (for `\b`).  This is the backtracking semantics of the regex
fragment, used for `RegExp.prototype.test` (existence of a match). -/
def rmatch : List RTok → Option Char → Str → Bool
  | [], _, _ => true
  | .lit c :: ts, _, d :: s => c = d && rmatch ts (some d) s
  | .lit _ :: _, _, [] => false
  | .anyc :: ts, _, d :: s => d ≠ '\n' && d ≠ '\r' && rmatch ts (some d) s
  | .anyc :: _, _, [] => false
  | .wordB :: ts, prev, s =>
    (isWordOpt prev != isWordOpt (headChar s)) && rmatch ts prev s
  | .wsPlus :: ts, _, d :: s =>
    isWsChar d && (rmatch ts (some d) s || rmatch (.wsPlus :: ts) (some d) s)
  | .wsPlus :: _, _, [] => false
  | .starNonSep :: ts, prev, s =>
    rmatch ts prev s ||
      (match s with
       | d :: t => d ≠ '/' && rmatch (.starNonSep :: ts) (some d) t
       | [] => false)
termination_by ts _ s => (s.length, ts.length)

/-- Try a match starting at every position of `s` (unanchored
`RegExp.prototype.test`), tracking the preceding character. -/
def rtestFrom (ts : List RTok) : Option Char → Str → Bool
  | prev, s =>
    rmatch ts prev s ||
      (match s with
       | c :: t => rtestFrom ts (some c) t
       | [] => false)
termination_by _ s => s.length

/-- `new RegExp(pattern).test(s)` for a tokenized pattern. -/
def rtest (ts : List RTok) (s : Str) : Bool := rtestFrom ts none s

/-- Tokens of the search term inside `\b<term>\b`: the term text is
spliced into the pattern unescaped, so `.` acts as the regex wildcard
and every other character is kept as a literal. This translation is
faithful exactly for terms whose regex metacharacters are at most `.`;
terms containing `+ * ? ( ) [ \x7b | \ ^ $` that still form a valid
pattern (e.g. `a+b`) fall outside the modeled fragment, and every
theorem below evaluating `wbTest` stays inside it (via `plainTerm` or a
concrete term with at most a `.`). Invalid patterns throw before any
match and are covered by `searchRaises`. -/
def termToks (t : Str) : List RTok :=
  t.map (fun c => if c = '.' then RTok.anyc else RTok.lit c)

/-- `new RegExp("\\b" + term + "\\b").test(line)`
(`findMatches`, word-boundary bonus). -/
def wbTest (t line : Str) : Bool :=
  rtest (RTok.wordB :: termToks t ++ [RTok.wordB]) line

/-- File classification (`IndexedFile['type']`):
`example | doc | template | other`. -/
inductive FileType where
  | fileExample
  | fileDoc
  | fileTemplate
  | fileOther
deriving DecidableEq, Repr

/-- Search scope (`SearchScope`). -/
inductive SearchScope where
  | docs
  | examples
  | docsAndExamples
  | all
deriving DecidableEq, Repr

/-- The optional structured fields of `IndexedFile.metadata`. -/
structure Metadata where
  title : Option Str
  shortTitle : Option Str
  documentation : Option Str
  exampleStart : Option Nat
  exampleEnd : Option Nat
deriving DecidableEq, Repr

/-- `IndexedFile`. -/
structure IndexedFile where
  path : Str
  relativePath : Str
  content : Str
  lines : List Str
  lineOffsets : List Nat
  type : FileType
  metadata : Metadata
deriving DecidableEq, Repr

/-- `SearchResult`.  Scores are rationals (JS numbers). -/
structure SearchResult where
  path : Str
  relativePath : Str
  lineStart : Nat
  lineEnd : Nat
  excerpt : Str
  score : ℚ
  type : FileType
deriving DecidableEq, Repr

/-- `Citation`.  The line numbers echo the caller's arguments, which are
arbitrary JS numbers, so they are integers here. -/
structure Citation where
  path : Str
  lineStart : Int
  lineEnd : Int
  excerpt : Str
  reason : Option Str
deriving DecidableEq, Repr

/-- The query terms: `query.toLowerCase().split(/\s+/).filter(t => t.length > 0)`. -/
def queryTermsOf (query : Str) : List Str :=
  (splitWsAux (lowerStr query) []).filter (fun t => t.length > 0)

/-- Score contribution of one query term to one line (`findMatches` inner
loop): +10 if the term occurs in the lowercased line, +20 more if the
line begins with `term:`, +5 more if `\bterm\b` matches. -/
def termScore (lineLower t : Str) : ℚ :=
  if jsIncludes lineLower t then
    10 + (if isPre (t ++ [':']) lineLower then 20 else 0)
       + (if wbTest t lineLower then 5 else 0)
  else 0

/-- Number of query terms occurring in the lowercased line
(`matchedTerms`). -/
def matchedCount (lineLower : Str) (terms : List Str) : Nat :=
  (terms.filter (fun t => jsIncludes lineLower t)).length

/-- Title bonus: +15 for each query term occurring in the lowercased
title, when the file has one. -/
def titleBonus (file : IndexedFile) (terms : List Str) : ℚ :=
  match file.metadata.title with
  | some ttl => 15 * ((terms.filter (fun t => jsIncludes (lowerStr ttl) t)).length : ℚ)
  | none => 0

/-- One iteration of the `findMatches` line loop: the candidate hit the
line at index `i` produces, if any.  `total` is `queryTerms.length`. -/
def lineHit (file : IndexedFile) (total : Nat) (terms : List Str) (i : Nat)
    (line : Str) : Option SearchResult :=
  let lineLower := lowerStr line
  let matched := matchedCount lineLower terms
  let score := terms.foldl (fun s t => s + termScore lineLower t) 0
  if matched > 0 then
    let contextStart := i - 2
    let contextEnd := min (file.lines.length - 1) (i + 5)
    let excerpt := joinWith [ '\n' ] ((file.lines.take (contextEnd + 1)).drop contextStart)
    let score := score + (matched : ℚ) / (total : ℚ) * 10
    let score := score + titleBonus file terms
    some { path := file.path, relativePath := file.relativePath,
           lineStart := contextStart + 1, lineEnd := contextEnd + 1,
           excerpt := excerpt, score := score, type := file.type }
  else none

/-- All candidate hits of a file, in line order (`findMatches` before
deduplication). -/
def rawResults (file : IndexedFile) (terms : List Str) : List SearchResult :=
  file.lines.enum.filterMap (fun p => lineHit file terms.length terms p.1 p.2)

/-- Stable insertion into a list sorted by descending score; an element
is placed before the first entry whose score does not exceed it, which
is the unique stable descending order (JS `sort((a, b) => b.score - a.score)`,
stable per ES2019). -/
def insHit (r : SearchResult) : List SearchResult → List SearchResult
  | [] => [r]
  | x :: xs => if x.score ≤ r.score then r :: x :: xs else x :: insHit r xs

/-- Stable sort by descending score. -/
def sortHits : List SearchResult → List SearchResult
  | [] => []
  | x :: xs => insHit x (sortHits xs)

/-- The deduplication key of a hit: `(relativePath, floor(lineStart / 10))`
(the code uses the string `` `${relativePath}:${Math.floor(lineStart / 10)}` ``,
which encodes the same pair injectively). -/
def hitKey (r : SearchResult) : Str × Nat := (r.relativePath, r.lineStart / 10)

/-- Walk the score-sorted hits and keep the first hit of each key
(`findMatches` deduplication). -/
def dedupHits : List SearchResult → List (Str × Nat) → List SearchResult
  | [], _ => []
  | r :: rest, seen =>
    if hitKey r ∈ seen then dedupHits rest seen
    else r :: dedupHits rest (hitKey r :: seen)

/-- `findMatches`: score every line, sort descending, deduplicate by
`(file, floor(lineStart / 10))` bucket. -/
def findMatches (file : IndexedFile) (terms : List Str) : List SearchResult :=
  dedupHits (sortHits (rawResults file terms)) []

/-- `matchesScope`. -/
def matchesScope (ty : FileType) (scope : SearchScope) : Bool :=
  match scope with
  | .docs => ty = .fileDoc
  | .examples => ty = .fileExample
  | .docsAndExamples => ty = .fileDoc || ty = .fileExample
  | .all => true

/-- Literal global string replacement, leftmost first, non-overlapping
(JS `String.prototype.replace` with a `g`-flagged literal pattern). -/
def replaceAll (pat repl : Str) : Str → Str
  | [] => []
  | c :: s =>
    if h : pat ≠ [] ∧ isPre pat (c :: s) then
      repl ++ replaceAll pat repl ((c :: s).drop pat.length)
    else c :: replaceAll pat repl s
termination_by s => s.length
decreasing_by
  · cases pat with
    | nil => exact absurd rfl h.1
    | cons p ps => simp only [List.length_drop, List.length_cons]; omega
  · simp

/-- The glob-to-regex translation of `matchesGlobs`:
`glob.replace(/\*\*/g, '.*').replace(/\*/g, '[^/]*').replace(/\?/g, '.')`.
Note the second replacement also rewrites the `*` inside the `.*` just
produced by the first. -/
def globToRegexStr (glob : Str) : Str :=
  replaceAll (str "?") (str ".")
    (replaceAll (str "*") (str "[^/]*")
      (replaceAll (str "**") (str ".*") glob))

/-- Tokenize the translated pattern: the translation only emits `[^/]*`
groups, `.` wildcards and the remaining glob characters, which the regex
engine treats literally (for the character set globs are written in). -/
def regexToks : Str → List RTok
  | [] => []
  | c :: s =>
    if isPre (str "[^/]*") (c :: s) then
      RTok.starNonSep :: regexToks ((c :: s).drop 5)
    else (if c = '.' then RTok.anyc else RTok.lit c) :: regexToks s
termination_by s => s.length
decreasing_by
  · simp only [List.length_drop, List.length_cons]; omega
  · simp

/-- `matchesGlobs`: the relative path matches when the translated regex
of some glob matches — `RegExp.prototype.test`, i.e. anywhere in the
path, unanchored. -/
def matchesGlobs (relativePath : Str) (globs : List Str) : Bool :=
  globs.any (fun g => rtest (regexToks (globToRegexStr g)) relativePath)

/-- `search` over the file table (an association list standing for the
insertion-ordered `Map`): scope and glob filter, per-file `findMatches`,
global stable descending sort, truncation to `maxResults`. -/
def search (table : List (Str × IndexedFile)) (query : Str) (maxResults : Nat)
    (scope : SearchScope) (fileGlobs : Option (List Str)) : List SearchResult :=
  let queryTerms := queryTermsOf query
  let results :=
    (table.filter (fun e =>
        matchesScope e.2.type scope &&
          (match fileGlobs with
           | none => true
           | some gs => matchesGlobs e.1 gs))).flatMap
      (fun e => findMatches e.2 queryTerms)
  (sortHits results).take maxResults

/-- JS `Map` as an insertion-ordered association list: `set` overwrites
the value in place when the key exists, else appends. -/
def mapSet (m : List (Str × α)) (key : Str) (val : α) : List (Str × α) :=
  if m.any (fun e => e.1 = key) then
    m.map (fun e => if e.1 = key then (key, val) else e)
  else m ++ [(key, val)]

/-- JS `Map.prototype.get`: value of the (unique) entry with this key. -/
def mapGet (m : List (Str × α)) (key : Str) : Option α :=
  match m with
  | [] => none
  | e :: t => if e.1 = key then some e.2 else mapGet t key

/-- `getSnippet`: clamp the requested 1-based range as
`lines.slice(Math.max(0, lineStart - 1), Math.min(lines.length, lineEnd))`
and join with newlines; `none` when the path is unknown. -/
def getSnippet (table : List (Str × IndexedFile)) (relativePath : Str)
    (lineStart lineEnd : Int) : Option Str :=
  match mapGet table relativePath with
  | none => none
  | some file =>
    some (joinWith [ '\n' ]
      (jsSlice file.lines (max 0 (lineStart - 1)) (min (file.lines.length : Int) lineEnd)))

/-- `createCitation`: unknown path fails; an empty excerpt string is
falsy in JS (`if (!excerpt) return null`), so it fails too; otherwise a
citation echoing the requested line numbers and the reason verbatim. -/
def createCitation (table : List (Str × IndexedFile)) (relativePath : Str)
    (lineStart lineEnd : Int) (reason : Option Str) : Option Citation :=
  match mapGet table relativePath with
  | none => none
  | some _ =>
    match getSnippet table relativePath lineStart lineEnd with
    | none => none
    | some excerpt =>
      if excerpt = [] then none
      else some { path := relativePath, lineStart := lineStart, lineEnd := lineEnd,
                  excerpt := excerpt, reason := reason }

/-- What the previous syntactic item of a regex position was, for
"nothing to repeat" checks. -/
inductive PrevItem where
  | start
  | atom
  | quant
  | lazyQ
deriving DecidableEq

/-- Scan a character class after `[` up to its closing `]`; `none` when
the class is unterminated (a syntax error).  The flag records whether
the previous character was an escaping backslash. -/
def classScan : Bool → Str → Option Str
  | _, [] => none
  | true, _ :: s => classScan false s
  | false, c :: s => if c = ']' then some s else classScan (c = '\\') s

/-- Parse a braced quantifier `{n}`, `{n,}` or `{n,m}` after `{`,
returning the rest; `none` when the braces do not form one (then `{` is
a literal, per Annex B). -/
def bracedQuant (s : Str) : Option Str :=
  if s.takeWhile Char.isDigit = [] then none
  else match s.dropWhile Char.isDigit with
    | '}' :: rest => some rest
    | ',' :: r2 =>
      (match r2.dropWhile Char.isDigit with
       | '}' :: rest => some rest
       | _ => none)
    | _ => none

/-- `classScan` only consumes characters. -/
def classScan_length : ∀ (s : Str) (b : Bool) (rest : Str),
    classScan b s = some rest → rest.length < s.length := by
  intro s
  induction s with
  | nil => intro b rest h; cases b <;> simp [classScan] at h
  | cons c t ih =>
    intro b rest h
    cases b with
    | true =>
      simp only [classScan] at h
      have := ih false rest h
      simp only [List.length_cons]; omega
    | false =>
      simp only [classScan] at h
      split at h
      · simp only [Option.some.injEq] at h
        subst h; simp
      · have := ih (c = '\\') rest h
        simp only [List.length_cons]; omega

/-- `dropWhile` never lengthens a list. -/
def lenDropWhileLe (p : α → Bool) : ∀ l : List α, (l.dropWhile p).length ≤ l.length := by
  intro l
  induction l with
  | nil => simp
  | cons a t ih =>
    by_cases h : p a
    · simp only [List.dropWhile_cons, h, if_true]
      simp only [List.length_cons]; omega
    · simp [List.dropWhile_cons, h]

/-- When `takeWhile` consumed something, `dropWhile` strictly shortens. -/
def lenDropWhileLt (p : α → Bool) (l : List α) (h : l.takeWhile p ≠ []) :
    (l.dropWhile p).length < l.length := by
  cases l with
  | nil => simp at h
  | cons a t =>
    by_cases hp : p a
    · simp only [List.dropWhile_cons, hp, if_true, List.length_cons]
      have := lenDropWhileLe p t; omega
    · simp [List.takeWhile_cons, hp] at h

/-- `bracedQuant` only consumes characters. -/
def bracedQuant_length : ∀ s rest : Str, bracedQuant s = some rest →
    rest.length < s.length := by
  intro s rest h
  unfold bracedQuant at h
  split at h
  · exact absurd h (by simp)
  · rename_i hds
    have hlt : (s.dropWhile Char.isDigit).length < s.length := lenDropWhileLt _ s hds
    split at h
    · rename_i r1 heq
      simp only [Option.some.injEq] at h
      have hr : (s.dropWhile Char.isDigit).length = r1.length + 1 := by rw [heq]; simp
      rw [← h]
      omega
    · rename_i r2 heq
      split at h
      · rename_i rest2 heq2
        simp only [Option.some.injEq] at h
        have h1 : (s.dropWhile Char.isDigit).length = r2.length + 1 := by rw [heq]; simp
        have h2 : (r2.dropWhile Char.isDigit).length = rest2.length + 1 := by rw [heq2]; simp
        have h3 : (r2.dropWhile Char.isDigit).length ≤ r2.length := lenDropWhileLe _ r2
        rw [← h]
        omega
      · exact absurd h (by simp)
    · exact absurd h (by simp)

/-- Conservative validity check for the regex pattern text (JavaScript,
no flags): rejects only certain syntax errors — a quantifier with
nothing to repeat, a quantifier stacked on a quantifier (beyond one lazy
`?`), unbalanced groups, an unterminated class, a bad `(?` group.
Constructs it is unsure about (assertions under quantifiers, malformed
ranges) are accepted, so `false` here implies `new RegExp` throws. -/
def reValidAux : Str → Nat → PrevItem → Bool
  | [], depth, _ => depth == 0
  | '\\' :: [], _, _ => false
  | '\\' :: _ :: s, d, _ => reValidAux s d .atom
  | '(' :: '?' :: c :: s, d, _ =>
    if c = ':' || c = '=' || c = '!' || c = '<' then reValidAux s (d + 1) .start
    else false
  | '(' :: '?' :: [], _, _ => false
  | '(' :: s, d, _ => reValidAux s (d + 1) .start
  | ')' :: s, d, _ => if d == 0 then false else reValidAux s (d - 1) .atom
  | '[' :: s, d, _ =>
    (match h : classScan false s with
     | some rest => reValidAux rest d .atom
     | none => false)
  | '*' :: s, d, p => p == .atom && reValidAux s d .quant
  | '+' :: s, d, p => p == .atom && reValidAux s d .quant
  | '?' :: s, d, p =>
    (match p with
     | .atom => reValidAux s d .quant
     | .quant => reValidAux s d .lazyQ
     | _ => false)
  | '|' :: s, d, _ => reValidAux s d .start
  | '{' :: s, d, p =>
    (match h : bracedQuant s with
     | some rest => p == .atom && reValidAux rest d .quant
     | none => reValidAux s d .atom)
  | _ :: s, d, _ => reValidAux s d .atom
termination_by s _ _ => s.length
decreasing_by
  all_goals first
  | (simp only [List.length_cons]; omega)
  | (have hlt := classScan_length _ _ _ h
     simp only [List.length_cons]; omega)
  | (have hlt := bracedQuant_length _ _ h
     simp only [List.length_cons]; omega)

/-- `new RegExp("\\b" + term + "\\b")` compiles without throwing
(conservatively: `false` means it certainly throws). -/
def regexValidTerm (t : Str) : Bool :=
  reValidAux ([ '\\', 'b' ] ++ t ++ [ '\\', 'b' ]) 0 .start

/-- A term whose characters are all regex-literal: building and testing
`\bterm\b` then treats the term text literally. -/
def plainTerm (t : Str) : Bool :=
  t ≠ [] && t.all (fun c =>
    !(c = '\\' || c = '^' || c = '$' || c = '.' || c = '|' || c = '?' || c = '*' ||
      c = '+' || c = '(' || c = ')' || c = '[' || c = ']' || c = '{' || c = '}'))

/-- `search` throws (for a call without `fileGlobs`) exactly when some
in-scope file has a line containing (case-insensitively) a query term
whose `\bterm\b` pattern is an invalid regex: the line loop reaches
every line of every surviving file until the faulty `new RegExp` runs. -/
def searchRaises (table : List (Str × IndexedFile)) (query : Str)
    (scope : SearchScope) : Bool :=
  (table.filter (fun e => matchesScope e.2.type scope)).any (fun e =>
    e.2.lines.any (fun line =>
      (queryTermsOf query).any (fun t =>
        jsIncludes (lowerStr line) t && !regexValidTerm t)))

/-- A file handed to the ingestor by the directory walk: its absolute
path, its path relative to the corpus root (`path.relative`), and its
content as read from disk.  The filesystem walk itself is environment. -/
structure FileInput where
  path : Str
  relativePath : Str
  content : Str
deriving DecidableEq, Repr

/-- Offsets of the line starts (`indexFile`: running offset, each line
plus one for the newline). -/
def lineOffsetsOf : List Str → Nat → List Nat
  | [], _ => []
  | l :: ls, off => off :: lineOffsetsOf ls (off + l.length + 1)

/-- Suffix strictly after the first occurrence of `needle`, if any
(the position where an unanchored regex continues after a literal). -/
def afterSub (needle : Str) : Str → Option Str
  | [] => if needle = [] then some [] else none
  | c :: t =>
    if isPre needle (c :: t) then some ((c :: t).drop needle.length)
    else afterSub needle t

/-- Index just past the last `'\n'` of `s`, scanning only the leading
whitespace run (the backtracking of `metadata:\s*\n`: the greedy `\s*`
backtracks to the last newline of the whitespace run). -/
def lastNlOfWsRun (s : Str) : Option Nat :=
  let w := s.takeWhile isWsChar
  let idxs := (List.range w.length).filter (fun i => w.get? i = some '\n')
  idxs.getLast?.map (fun i => i + 1)

/-- A line the block capture `(?:[ \t]+[^\n]+\n?)*` accepts: starts with
a space or tab and has at least one further non-newline character. -/
def isBlockLine (l : Str) : Bool :=
  match l with
  | c :: _ :: _ => c = ' ' || c = '\t'
  | _ => false

/-- Locate the metadata block: the earliest line start matching
`^metadata:\s*\n`, returning the suffix where the indented block begins. -/
def scanMetaBlock : Str → Option Str
  | s =>
    (if isPre (str "metadata:") s then
      (match lastNlOfWsRun (s.drop 9) with
       | some k => some ((s.drop 9).drop k)
       | none => none)
     else none) <|>
    (match afterSub [ '\n' ] s with
     | some rest =>
       if rest.length < s.length then scanMetaBlock rest else none
     | none => none)
termination_by s => s.length

/-- The captured metadata block: the maximal run of indented lines. -/
def metaBlockOf (content : Str) : Option Str :=
  (scanMetaBlock content).map (fun suffix =>
    joinWith [ '\n' ] ((splitOnNlAux suffix []).takeWhile isBlockLine))

/-- Extract a string field: first occurrence of the tag, skip `\s*`, an
optional quote, then the run of characters up to a quote or newline,
trimmed (`title:\s*["']?([^"'\n]+)["']?` and friends). The JS regex
engine would backtrack to a later tag occurrence when the first is
followed immediately by a quote and a terminator (an empty capture);
this first-occurrence model returns none there instead — no theorem
below instantiates metadata extraction on such content. -/
def fieldAfter (tag : Str) (block : Str) : Option Str :=
  match afterSub tag block with
  | none => none
  | some rest =>
    let r1 := rest.dropWhile isWsChar
    let r2 := match r1 with
      | '"' :: t => t
      | '\'' :: t => t
      | _ => r1
    let v := r2.takeWhile (fun c => !(c = '"' || c = '\'' || c = '\n'))
    if v = [] then none else some (trimStr v)

/-- Decimal digits to a number (`parseInt(..., 10)` on a `\d+` capture). -/
def digitsToNat (s : Str) : Nat :=
  s.foldl (fun acc c => 10 * acc + (c.toNat - 48)) 0

/-- Extract a numeric field: first occurrence of the tag, skip
whitespace, then a digit run (`example start:\s*(\d+)`). -/
def numFieldAfter (tag : Str) (block : Str) : Option Nat :=
  match afterSub tag block with
  | none => none
  | some rest =>
    let v := (rest.dropWhile isWsChar).takeWhile Char.isDigit
    if v = [] then none else some (digitsToNat v)

/-- `extractMetadata`: find the leading declaration block and pull each
field independently; no block yields an empty record.  (The `title:`
pattern has no anchor, so it can also hit inside `short title:` — the
source shares this quirk.) -/
def extractMetadata (content : Str) : Metadata :=
  match metaBlockOf content with
  | none => { title := none, shortTitle := none, documentation := none,
              exampleStart := none, exampleEnd := none }
  | some block =>
    { title := fieldAfter (str "title:") block,
      shortTitle := fieldAfter (str "short title:") block,
      documentation := fieldAfter (str "documentation:") block,
      exampleStart := numFieldAfter (str "example start:") block,
      exampleEnd := numFieldAfter (str "example end:") block }

/-- Last path segment (`path.basename` without an extension argument). -/
def lastSegment (p : Str) : Str :=
  (p.reverse.takeWhile (fun c => c ≠ '/')).reverse

/-- `path.basename(filePath, path.extname(filePath))`: the last segment
with its extension (from the last dot at index ≥ 1) stripped. -/
def baseNameOf (p : Str) : Str :=
  let seg := lastSegment p
  match ((List.range seg.length).filter
      (fun i => 1 ≤ i ∧ seg.get? i = some '.')).getLast? with
  | some i => seg.take i
  | none => seg

/-- `indexFile`: split into lines, record offsets, extract metadata,
register under the relative path, and for examples also under the base
name. -/
def mkIndexedFile (inp : FileInput) (ty : FileType) : IndexedFile :=
  let lines := splitOnNlAux inp.content []
  { path := inp.path, relativePath := inp.relativePath, content := inp.content,
    lines := lines, lineOffsets := lineOffsetsOf lines 0, type := ty,
    metadata := extractMetadata inp.content }

/-- The mutable state of `DocassembleIndex` (insertion-ordered maps). -/
structure IndexState where
  files : List (Str × IndexedFile)
  examplesByName : List (Str × IndexedFile)
  keywordIndex : List (Str × List Str)
deriving DecidableEq, Repr

/-- One `indexFile` call. -/
def indexFileStep (st : IndexState) (inp : FileInput) (ty : FileType) : IndexState :=
  let f := mkIndexedFile inp ty
  { files := mapSet st.files inp.relativePath f,
    examplesByName :=
      if ty = .fileExample then mapSet st.examplesByName (baseNameOf inp.path) f
      else st.examplesByName,
    keywordIndex := st.keywordIndex }

/-- `indexDirectory`: ingest the files found under one root (the
recursive walk and extension filter are environment). -/
def indexDir (st : IndexState) (inputs : List FileInput) (ty : FileType) : IndexState :=
  inputs.foldl (fun s i => indexFileStep s i ty) st

/-- The fixed keyword vocabulary of `buildKeywordIndex`. -/
def keywordList : List Str :=
  [str "question", str "fields", str "buttons", str "choices", str "mandatory",
   str "code", str "attachment", str "attachments", str "template",
   str "content", str "subquestion", str "under", str "help", str "terms",
   str "auto terms", str "metadata", str "include", str "objects",
   str "object", str "generic object", str "sets", str "event",
   str "action", str "review", str "continue button field", str "signature",
   str "yesno", str "noyes", str "yesnomaybe", str "datatype",
   str "default", str "required", str "validation code",
   str "validation messages", str "show if", str "hide if",
   str "js show if", str "js hide if", str "note", str "html", str "css",
   str "script", str "features", str "sections", str "progress",
   str "table", str "rows", str "columns", str "edit", str "delete buttons",
   str "confirm", str "need", str "depends on", str "scan for variables",
   str "initial", str "default role", str "role", str "if", str "else",
   str "elif", str "for", str "while", str "def", str "class", str "import",
   str "from", str "modules", str "reset", str "undefine", str "reconsider",
   str "force ask", str "force gather", str "interview help",
   str "decoration", str "image sets", str "images", str "audio",
   str "video", str "prevent going back", str "back button",
   str "corner back button", str "continue button label",
   str "resume button label", str "exit", str "restart", str "leave",
   str "refresh", str "reload", str "url args", str "action argument",
   str "action buttons", str "background action", str "background response",
   str "background response action", str "check in", str "cron",
   str "allow cron", str "send email", str "email", str "sms", str "twilio",
   str "docx template file", str "pdf template file", str "variable name",
   str "valid formats", str "filename", str "name", str "description",
   str "skip undefined", str "pdf/a", str "tagged pdf", str "editable",
   str "decimal places", str "language", str "translations", str "words",
   str "comment", str "id", str "supersedes", str "order", str "usedefs",
   str "mako", str "jinja2", str "markdown", str "raw", str "target",
   str "ga id", str "segment id", str "suppress loading",
   str "suppress autofill", str "autocomplete", str "address autocomplete",
   str "geocode", str "object labeler", str "instanceName", str "DAList",
   str "DADict", str "DASet", str "DAObject", str "DAFile",
   str "DAFileList", str "DAFileCollection", str "DAStaticFile",
   str "DAEmail", str "Individual", str "Person", str "Name", str "Address",
   str "LatitudeLongitude", str "Organization", str "Thing", str "Event",
   str "PeriodicValue", str "Value", str "OfficeList",
   str "RoleChangeTracker", str "DARedis", str "DAStore", str "DAGlobal",
   str "DACloudStorage", str "DAOAuth", str "DAWeb", str "DAContext",
   str "DAEmpty", str "DALazyTemplate", str "DALazyTableTemplate"]
/-- Tokens of a keyword matcher:
`new RegExp('\\b' + keyword.replace(/\s+/g, '\\s+') + '\\b', 'gi')` —
whitespace runs become `\s+` and the `i` flag is modelled by comparing
lowercased characters. -/
def kwToksAux : Str → List RTok
  | [] => []
  | c :: t =>
    if isWsChar c then RTok.wsPlus :: kwToksAux (t.dropWhile isWsChar)
    else RTok.lit c.toLower :: kwToksAux t
termination_by s => s.length
decreasing_by
  · have := lenDropWhileLe isWsChar t
    simp only [List.length_cons]; omega
  · simp

/-- A keyword matches a file's content (case-insensitive whole-word
test with flexible whitespace). -/
def kwMatch (kw content : Str) : Bool :=
  rtest (RTok.wordB :: kwToksAux kw ++ [RTok.wordB]) (lowerStr content)

/-- Add a relative path to a keyword's set (JS `Set.prototype.add`). -/
def addKw (ki : List (Str × List Str)) (kw rel : Str) : List (Str × List Str) :=
  if ki.any (fun e => e.1 = kw) then
    ki.map (fun e => if e.1 = kw then (e.1, if rel ∈ e.2 then e.2 else e.2 ++ [rel]) else e)
  else ki ++ [(kw, [rel])]

/-- `buildKeywordIndex`: for every ingested file and every vocabulary
keyword that matches its content, record the relative path under the
lowercased keyword. -/
def buildKeywordIndexStep (st : IndexState) : IndexState :=
  { st with keywordIndex :=
      st.files.foldl (fun ki e =>
        keywordList.foldl (fun ki kw =>
          if kwMatch kw e.2.content then addKw ki (lowerStr kw) e.1 else ki) ki) [] }

/-- `initialize`: ingest the examples root and the demo-questions root
as `example`, the templates root as `template`, then build the keyword
index.  The three arguments are the files the directory walks find. -/
def initializeIndex (ex demo tmpl : List FileInput) : IndexState :=
  buildKeywordIndexStep
    (indexDir (indexDir (indexDir ⟨[], [], []⟩ ex .fileExample) demo .fileExample)
      tmpl .fileTemplate)

/-- `getStats`. -/
structure Stats where
  totalFiles : Nat
  examples : Nat
  docs : Nat
  templates : Nat
  keywords : Nat
deriving DecidableEq, Repr

/-- `getStats`: count the files of each classification; `other` files
count only toward the total. -/
def getStats (st : IndexState) : Stats :=
  { totalFiles := st.files.length,
    examples := (st.files.filter (fun e => e.2.type = .fileExample)).length,
    docs := (st.files.filter (fun e => e.2.type = .fileDoc)).length,
    templates := (st.files.filter (fun e => e.2.type = .fileTemplate)).length,
    keywords := st.keywordIndex.length }

/-- `getExampleByName`. -/
def getExampleByName (st : IndexState) (name : Str) : Option IndexedFile :=
  mapGet st.examplesByName name

/-- `getFile`. -/
def getFile (st : IndexState) (relativePath : Str) : Option IndexedFile :=
  mapGet st.files relativePath

/-- Glob matching as the specification words it (for comparison with the
code's `matchesGlobs`): the whole relative path matches the pattern,
`**` matches any character sequence including `/`, `*` any sequence
excluding `/`, `?` exactly one character, and every other character
itself. -/
def specGlobMatch : Str → Str → Bool
  | [], s => s.isEmpty
  | '*' :: '*' :: p, s =>
    specGlobMatch p s ||
      (match s with
       | _ :: t => specGlobMatch ('*' :: '*' :: p) t
       | [] => false)
  | '*' :: p, s =>
    specGlobMatch p s ||
      (match s with
       | c :: t => c ≠ '/' && specGlobMatch ('*' :: p) t
       | [] => false)
  | '?' :: p, s =>
    (match s with
     | _ :: t => specGlobMatch p t
     | [] => false)
  | c :: p, s =>
    (match s with
     | d :: t => c = d && specGlobMatch p t
     | [] => false)
termination_by p s => (s.length, p.length)

/-- The position just before index `i`, as an optional character. -/
def prevCharAt (line : Str) (i : Nat) : Option Char :=
  if i = 0 then none else line.get? (i - 1)

/-- A word boundary of the line sits between positions `i - 1` and `i`:
exactly one side is a word character (off-string counts as non-word). -/
def boundaryAt (line : Str) (i : Nat) : Bool :=
  isWordOpt (prevCharAt line i) != isWordOpt (line.get? i)

/-- The specification reading of "the term matches at a word boundary in
the line": the term text itself occurs at some position with word
boundaries on both sides. -/
def specWB (t line : Str) : Bool :=
  (List.range (line.length + 1)).any (fun i =>
    isPre t (line.drop i) && boundaryAt line i && boundaryAt line (i + t.length))

/-- The claimed hit score of a line (the specification formula): 10 per
occurring term, 20 more per occurring term the line starts with as
`term:`, 5 more per occurring term at a word boundary, the coverage
bonus `(matched / total) * 10` once, and 15 per term occurring in the
lowercased title when present. -/
def claimHitScore (file : IndexedFile) (terms : List Str) (line : Str) : ℚ :=
  let ll := lowerStr line
  10 * ((terms.filter (fun t => jsIncludes ll t)).length : ℚ) +
  20 * ((terms.filter (fun t => jsIncludes ll t && isPre (t ++ [':']) ll)).length : ℚ) +
  5 * ((terms.filter (fun t => jsIncludes ll t && specWB t ll)).length : ℚ) +
  ((matchedCount ll terms : ℚ) / (terms.length : ℚ)) * 10 +
  (match file.metadata.title with
   | some ttl =>
     15 * ((terms.filter (fun t => jsIncludes (lowerStr ttl) t)).length : ℚ)
   | none => 0)

/-- The last character of `t`, or `prev` when `t` is empty: the
character preceding the position just after a literal run. -/
def lastOr (prev : Option Char) (t : Str) : Option Char :=
  match t.getLast? with
  | some c => some c
  | none => prev

/-- The character just before position `i` of `s`, where `prev` is the
character before position 0. -/
def prevOf (prev : Option Char) (s : Str) (i : Nat) : Option Char :=
  if i = 0 then prev else s.get? (i - 1)

/-! ## Small concrete corpora used to instantiate the theorems -/

/-- Empty metadata record. -/
def noMeta : Metadata :=
  { title := none, shortTitle := none, documentation := none,
    exampleStart := none, exampleEnd := none }

/-- One-line file `"a"`. -/
def fileA : IndexedFile :=
  { path := str "/repo/f.yml", relativePath := str "f.yml", content := str "a",
    lines := [str "a"], lineOffsets := [0], type := .fileExample, metadata := noMeta }

/-- Two-line file `"a\nb"`. -/
def fileB : IndexedFile :=
  { path := str "/repo/g.yml", relativePath := str "g.yml", content := str "a\nb",
    lines := [str "a", str "b"], lineOffsets := [0, 2], type := .fileExample,
    metadata := noMeta }

/-- Example file whose first line is exactly `question: |`. -/
def qfile : IndexedFile :=
  { path := str "/repo/q.yml", relativePath := str "q.yml",
    content := str "question: |\n  Hello",
    lines := [str "question: |", str "  Hello"], lineOffsets := [0, 12],
    type := .fileExample, metadata := noMeta }

/-- Example file mentioning the query word only mid-line, with a title. -/
def mfile : IndexedFile :=
  { path := str "/repo/m.yml", relativePath := str "m.yml",
    content := str "a question about money",
    lines := [str "a question about money"], lineOffsets := [0],
    type := .fileExample,
    metadata := { noMeta with title := some (str "Question Demo") } }

/-- Example file containing the term `c++` in a line. -/
def cppFile : IndexedFile :=
  { path := str "/repo/c.yml", relativePath := str "c.yml",
    content := str "uses c++ here",
    lines := [str "uses c++ here"], lineOffsets := [0],
    type := .fileExample, metadata := noMeta }

/-- File registered under the nested relative path `a/b/d`. -/
def gfile : IndexedFile :=
  { path := str "/repo/a/b/d", relativePath := str "a/b/d", content := str "hello",
    lines := [str "hello"], lineOffsets := [0], type := .fileExample,
    metadata := noMeta }

/-- Singleton tables for the files above. -/
def tblA : List (Str × IndexedFile) := [(str "f.yml", fileA)]

def tblB : List (Str × IndexedFile) := [(str "g.yml", fileB)]

def tblQ : List (Str × IndexedFile) := [(str "q.yml", qfile), (str "m.yml", mfile)]

def tblC : List (Str × IndexedFile) := [(str "c.yml", cppFile)]

def tblG : List (Str × IndexedFile) := [(str "a/b/d", gfile)]

/-- The single result of `search tblA "a"`. -/
def resA : SearchResult :=
  { path := str "/repo/f.yml", relativePath := str "f.yml", lineStart := 1,
    lineEnd := 1, excerpt := str "a", score := 25, type := .fileExample }

/-- The citation `createCitation tblB "g.yml" 1 2` returns. -/
def citB : Citation :=
  { path := str "g.yml", lineStart := 1, lineEnd := 2, excerpt := str "a\nb",
    reason := none }

/-- The hit the first line of `qfile` produces for the query `question`. -/
def resQ : SearchResult :=
  { path := str "/repo/q.yml", relativePath := str "q.yml", lineStart := 1,
    lineEnd := 2, excerpt := str "question: |\n  Hello", score := 45,
    type := .fileExample }

/-- Example file whose only line contains the term `a.c` literally (not
at a word boundary) and also the phantom match `abc` of the unescaped
pattern `\ba.c\b`. -/
def dotFile : IndexedFile :=
  { path := str "/repo/d.yml", relativePath := str "d.yml",
    content := str "xa.c abc",
    lines := [str "xa.c abc"], lineOffsets := [0],
    type := .fileExample, metadata := noMeta }

/-! ## Basic lemmas about the map model and the citation factory -/

theorem mapGet_replace_self (m : List (Str × α)) (k : Str) (v : α)
    (hany : m.any (fun e => e.1 = k) = true) :
    mapGet (m.map (fun e => if e.1 = k then (k, v) else e)) k = some v := by
  induction m with
  | nil => simp at hany
  | cons e t ih =>
    by_cases he : e.1 = k
    · simp [List.map_cons, if_pos he, mapGet]
    · simp only [List.any_cons, Bool.or_eq_true, decide_eq_true_eq, he, false_or] at hany
      simp only [List.map_cons, if_neg he, mapGet, if_neg he]
      exact ih hany

theorem mapGet_replace_ne (m : List (Str × α)) (k k2 : Str) (v : α) (hne : k2 ≠ k) :
    mapGet (m.map (fun e => if e.1 = k then (k, v) else e)) k2 = mapGet m k2 := by
  induction m with
  | nil => simp [mapGet]
  | cons e t ih =>
    by_cases he : e.1 = k
    · have hek2 : ¬(e.1 = k2) := by rw [he]; exact Ne.symm hne
      simp only [List.map_cons, if_pos he, mapGet, if_neg (Ne.symm hne), if_neg hek2]
      exact ih
    · simp only [List.map_cons, if_neg he, mapGet]
      by_cases h2 : e.1 = k2
      · simp [h2]
      · simp only [if_neg h2]
        exact ih

theorem mapGet_append_self (m : List (Str × α)) (k : Str) (v : α)
    (hany : m.any (fun e => e.1 = k) = false) :
    mapGet (m ++ [(k, v)]) k = some v := by
  induction m with
  | nil => simp [mapGet]
  | cons e t ih =>
    simp only [List.any_cons, Bool.or_eq_false_iff, decide_eq_false_iff_not] at hany
    simp only [List.cons_append, mapGet, if_neg hany.1]
    exact ih (by simp [hany.2])

theorem mapGet_append_ne (m : List (Str × α)) (k k2 : Str) (v : α) (hne : k2 ≠ k) :
    mapGet (m ++ [(k, v)]) k2 = mapGet m k2 := by
  induction m with
  | nil => simp only [List.nil_append, mapGet, if_neg (Ne.symm hne)]
  | cons e t ih =>
    simp only [List.cons_append, mapGet]
    by_cases h2 : e.1 = k2
    · simp [h2]
    · simp only [if_neg h2]
      exact ih

theorem mapGet_mapSet_self (m : List (Str × α)) (k : Str) (v : α) :
    mapGet (mapSet m k v) k = some v := by
  unfold mapSet
  split
  · rename_i hany
    exact mapGet_replace_self m k v hany
  · rename_i hany
    exact mapGet_append_self m k v (Bool.eq_false_iff.mpr hany)

theorem mapGet_mapSet_ne (m : List (Str × α)) (k k2 : Str) (v : α) (hne : k2 ≠ k) :
    mapGet (mapSet m k v) k2 = mapGet m k2 := by
  unfold mapSet
  split
  · exact mapGet_replace_ne m k k2 v hne
  · exact mapGet_append_ne m k k2 v hne

theorem insHit_perm (r : SearchResult) (l : List SearchResult) :
    (insHit r l).Perm (r :: l) := by
  induction l with
  | nil => simp [insHit]
  | cons x xs ih =>
    unfold insHit
    split
    · exact List.Perm.refl _
    · exact (List.Perm.cons x ih).trans (List.Perm.swap r x xs)

theorem sortHits_perm (l : List SearchResult) : (sortHits l).Perm l := by
  induction l with
  | nil => simp [sortHits]
  | cons x xs ih =>
    unfold sortHits
    exact (insHit_perm x (sortHits xs)).trans (List.Perm.cons x ih)

theorem mem_insHit (r x : SearchResult) (l : List SearchResult) :
    x ∈ insHit r l ↔ x = r ∨ x ∈ l := by
  rw [(insHit_perm r l).mem_iff]
  simp

theorem mem_sortHits (x : SearchResult) (l : List SearchResult) :
    x ∈ sortHits l ↔ x ∈ l := (sortHits_perm l).mem_iff

theorem insHit_pairwise (r : SearchResult) (l : List SearchResult)
    (h : l.Pairwise (fun a b => b.score ≤ a.score)) :
    (insHit r l).Pairwise (fun a b => b.score ≤ a.score) := by
  induction l with
  | nil => simp [insHit]
  | cons x xs ih =>
    rw [List.pairwise_cons] at h
    unfold insHit
    split
    · rename_i hc
      rw [List.pairwise_cons]
      refine ⟨?_, List.pairwise_cons.mpr h⟩
      intro y hy
      rcases List.mem_cons.mp hy with h1 | h1
      · exact h1 ▸ hc
      · exact le_trans (h.1 y h1) hc
    · rename_i hc
      rw [List.pairwise_cons]
      refine ⟨?_, ih h.2⟩
      intro y hy
      rcases (mem_insHit r y xs).mp hy with h1 | h1
      · exact h1 ▸ le_of_lt (lt_of_not_le hc)
      · exact h.1 y h1

theorem sortHits_pairwise (l : List SearchResult) :
    (sortHits l).Pairwise (fun a b => b.score ≤ a.score) := by
  induction l with
  | nil => simp [sortHits]
  | cons x xs ih => exact insHit_pairwise x (sortHits xs) ih

theorem sortHits_head_max (l : List SearchResult) (r : SearchResult)
    (rest : List SearchResult) (h : sortHits l = r :: rest) :
    ∀ x ∈ l, x.score ≤ r.score := by
  intro x hx
  have hmem : x ∈ r :: rest := h ▸ (mem_sortHits x l).mpr hx
  have hp := sortHits_pairwise l
  rw [h, List.pairwise_cons] at hp
  rcases List.mem_cons.mp hmem with h1 | h1
  · exact h1 ▸ le_refl _
  · exact hp.1 x h1

theorem dedupHits_sublist (l : List SearchResult) :
    ∀ seen, (dedupHits l seen).Sublist l := by
  induction l with
  | nil => intro seen; simp [dedupHits]
  | cons r rest ih =>
    intro seen
    unfold dedupHits
    split
    · exact (ih seen).cons r
    · exact (ih (hitKey r :: seen)).cons₂ r

theorem mem_of_mem_dedupHits (l : List SearchResult) (seen : List (Str × Nat))
    (x : SearchResult) (h : x ∈ dedupHits l seen) : x ∈ l :=
  (dedupHits_sublist l seen).subset h

theorem dedupHits_key_not_seen (l : List SearchResult) :
    ∀ seen x, x ∈ dedupHits l seen → hitKey x ∉ seen := by
  induction l with
  | nil => intro seen x h; simp [dedupHits] at h
  | cons r rest ih =>
    intro seen x h
    unfold dedupHits at h
    split at h
    · exact ih seen x h
    · rename_i hns
      rcases List.mem_cons.mp h with h1 | h1
      · exact h1 ▸ hns
      · have := ih (hitKey r :: seen) x h1
        exact fun hc => this (List.mem_cons_of_mem _ hc)

theorem dedupHits_keys_pairwise (l : List SearchResult) :
    ∀ seen, (dedupHits l seen).Pairwise (fun a b => hitKey a ≠ hitKey b) := by
  induction l with
  | nil => intro seen; simp [dedupHits]
  | cons r rest ih =>
    intro seen
    unfold dedupHits
    split
    · exact ih seen
    · rw [List.pairwise_cons]
      refine ⟨?_, ih (hitKey r :: seen)⟩
      intro y hy
      have := dedupHits_key_not_seen rest (hitKey r :: seen) y hy
      intro hc
      exact this (hc ▸ List.mem_cons_self _ _)

theorem dedupHits_retain (l : List SearchResult) :
    ∀ seen, l.Pairwise (fun a b => b.score ≤ a.score) →
      ∀ r ∈ l, hitKey r ∉ seen →
        ∃ q ∈ dedupHits l seen, hitKey q = hitKey r ∧ r.score ≤ q.score := by
  induction l with
  | nil => intro seen _ r hr; simp at hr
  | cons x rest ih =>
    intro seen hp r hr hks
    rw [List.pairwise_cons] at hp
    unfold dedupHits
    rcases List.mem_cons.mp hr with h1 | h1
    · subst h1
      split
      · rename_i hc; exact absurd hc hks
      · exact ⟨r, List.mem_cons_self _ _, rfl, le_refl _⟩
    · split
      · rename_i hc
        exact ih seen hp.2 r h1 hks
      · rename_i hc
        by_cases hk : hitKey r = hitKey x
        · exact ⟨x, List.mem_cons_self _ _, hk.symm, hp.1 r h1⟩
        · have hks2 : hitKey r ∉ hitKey x :: seen := by
            intro hmem
            rcases List.mem_cons.mp hmem with h2 | h2
            · exact hk h2
            · exact hks h2
          obtain ⟨q, hq, hqk, hqs⟩ := ih (hitKey x :: seen) hp.2 r h1 hks2
          exact ⟨q, List.mem_cons_of_mem _ hq, hqk, hqs⟩

theorem rawResults_mem (f : IndexedFile) (ts : List Str) (r : SearchResult)
    (hr : r ∈ rawResults f ts) :
    r.path = f.path ∧ r.relativePath = f.relativePath ∧ r.type = f.type ∧
    1 ≤ r.lineStart ∧ r.lineStart ≤ r.lineEnd ∧ r.lineEnd ≤ f.lines.length ∧
    r.excerpt = joinWith [ '\n' ] ((f.lines.take r.lineEnd).drop (r.lineStart - 1)) := by
  unfold rawResults at hr
  obtain ⟨p, hp, hm⟩ := List.mem_filterMap.mp hr
  have hget : f.lines.get? p.1 = some p.2 := List.mem_enum_iff_get?.mp hp
  have hi : p.1 < f.lines.length := by
    rcases List.get?_eq_some.mp hget with ⟨h1, _⟩
    exact h1
  unfold lineHit at hm
  simp only [] at hm
  split at hm
  · rename_i hmatched
    simp only [Option.some.injEq] at hm
    subst hm
    refine ⟨rfl, rfl, rfl, ?_, ?_, ?_, ?_⟩
    · simp
    · simp only []
      omega
    · simp only []
      omega
    · simp only []
      congr 1
  · simp at hm

theorem findMatches_sub_raw (f : IndexedFile) (ts : List Str) (r : SearchResult)
    (hr : r ∈ findMatches f ts) : r ∈ rawResults f ts := by
  unfold findMatches at hr
  exact (mem_sortHits r _).mp (mem_of_mem_dedupHits _ _ r hr)

theorem search_mem (table : List (Str × IndexedFile)) (q : Str) (n : Nat)
    (scope : SearchScope) (globs : Option (List Str)) (r : SearchResult)
    (hr : r ∈ search table q n scope globs) :
    ∃ e ∈ table, matchesScope e.2.type scope = true ∧
      r ∈ findMatches e.2 (queryTermsOf q) := by
  unfold search at hr
  simp only [] at hr
  have h1 := (mem_sortHits r _).mp (List.mem_of_mem_take hr)
  obtain ⟨e, he, hfm⟩ := List.mem_flatMap.mp h1
  have h2 := List.mem_filter.mp he
  have h3 := h2.2
  simp only [Bool.and_eq_true] at h3
  exact ⟨e, h2.1, h3.1, hfm⟩

/-- For an ingested path, `createCitation` succeeds exactly when the
clamped excerpt text is nonempty, echoing the requested range and the
reason. -/
theorem createCitation_char (table : List (Str × IndexedFile)) (rel : Str)
    (ls le : Int) (reason : Option Str) (file : IndexedFile)
    (hf : mapGet table rel = some file) :
    (joinWith [ '\n' ]
        (jsSlice file.lines (max 0 (ls - 1)) (min (file.lines.length : Int) le)) ≠ [] →
      createCitation table rel ls le reason =
        some { path := rel, lineStart := ls, lineEnd := le,
               excerpt := joinWith [ '\n' ]
                 (jsSlice file.lines (max 0 (ls - 1))
                   (min (file.lines.length : Int) le)),
               reason := reason }) ∧
    (joinWith [ '\n' ]
        (jsSlice file.lines (max 0 (ls - 1)) (min (file.lines.length : Int) le)) = [] →
      createCitation table rel ls le reason = none) := by
  unfold createCitation getSnippet
  rw [hf]
  constructor
  · intro hne
    simp only [if_neg hne]
  · intro he
    simp only [if_pos he]

/-! ## Claim C4 -/

/-- Claim C4 counterexample: on an ingested one-line file, the request
`(5, 3)` clamps to an empty slice, so `createCitation` returns the
failure indicator rather than a citation — the claim promised a
citation for every requested range of an ingested path. -/
theorem c4_counterexample :
    createCitation tblA (str "f.yml") 5 3 none = none := by decide

/-- Claim C4 (amended): for an ingested relative path, `createCitation`
returns a citation exactly when the clamped slice joins to a nonempty
excerpt text; the citation then carries exactly that excerpt and the
optional reason verbatim, and the empty-excerpt case (for instance an
empty clamped range, as with start after end) yields the failure
indicator instead. -/
theorem c4_citation_excerpt (table : List (Str × IndexedFile)) (rel : Str)
    (ls le : Int) (reason : Option Str) (file : IndexedFile)
    (hf : mapGet table rel = some file) :
    (joinWith [ '\n' ]
        (jsSlice file.lines (max 0 (ls - 1)) (min (file.lines.length : Int) le)) ≠ [] →
      createCitation table rel ls le reason =
        some { path := rel, lineStart := ls, lineEnd := le,
               excerpt := joinWith [ '\n' ]
                 (jsSlice file.lines (max 0 (ls - 1))
                   (min (file.lines.length : Int) le)),
               reason := reason }) ∧
    (joinWith [ '\n' ]
        (jsSlice file.lines (max 0 (ls - 1)) (min (file.lines.length : Int) le)) = [] →
      createCitation table rel ls le reason = none) :=
  createCitation_char table rel ls le reason file hf

/-- Claim C4 witness. -/
theorem c4_witness :
    createCitation tblA (str "f.yml") 1 1 (some (str "why")) =
      some { path := str "f.yml", lineStart := 1, lineEnd := 1,
             excerpt := str "a", reason := some (str "why") } := by
  have h := c4_citation_excerpt tblA (str "f.yml") 1 1 (some (str "why")) fileA
    (by decide)
  exact h.1 (by decide)

/-! ## Claim C6 -/

/-- Claim C6 counterexample: `lineStart = 1 > lineEnd = -1`, yet the
call returns a citation, because JS `Array.prototype.slice` interprets
the negative end as an offset from the end of the file; the claim
promised a failure indicator for every `lineStart > lineEnd`. -/
theorem c6_counterexample :
    createCitation tblB (str "g.yml") 1 (-1) none =
      some { path := str "g.yml", lineStart := 1, lineEnd := -1,
             excerpt := str "a", reason := none } ∧ (1 : Int) > -1 := by
  constructor
  · decide
  · decide

/-- Claim C6 (amended): `createCitation` never throws (it is a total
function here), returns the failure indicator for an unknown path, and
returns the failure indicator whenever `lineStart > lineEnd ≥ 0`; a
negative `lineEnd` is instead interpreted relative to the end of the
file by JS `slice`, so it can still produce a citation. -/
theorem c6_invalid_range (table : List (Str × IndexedFile)) (rel : Str)
    (ls le : Int) (reason : Option Str) :
    (mapGet table rel = none → createCitation table rel ls le reason = none) ∧
    (0 ≤ le → le < ls → createCitation table rel ls le reason = none) := by
  constructor
  · intro hf
    unfold createCitation
    rw [hf]
  · intro h0 hlt
    cases hf : mapGet table rel with
    | none =>
      unfold createCitation
      rw [hf]
    | some file =>
      have hc1 : ¬(min (file.lines.length : Int) le < 0) := by omega
      have hc2 : ¬((max 0 (ls - 1) : Int) < 0) := by omega
      have hempty : jsSlice file.lines (max 0 (ls - 1))
          (min (file.lines.length : Int) le) = [] := by
        unfold jsSlice jsSliceIdx
        rw [if_neg hc1, if_neg hc2]
        apply List.drop_eq_nil_of_le
        rw [List.length_take]
        omega
      exact (createCitation_char table rel ls le reason file hf).2
        (by rw [hempty]; rfl)

/-- Claim C6 witness. -/
theorem c6_witness :
    createCitation tblB (str "nonexistent/file.yml") 1 2 none = none ∧
    createCitation tblB (str "g.yml") 5 3 none = none := by
  constructor
  · exact (c6_invalid_range tblB (str "nonexistent/file.yml") 1 2 none).1 (by decide)
  · exact (c6_invalid_range tblB (str "g.yml") 5 3 none).2 (by decide) (by decide)

/-! ## Claim C5 -/

/-- Claim C5 counterexample: a citation may carry a line range outside
the referenced file's bounds, because `createCitation` echoes the
requested (unclamped) numbers while clamping only the excerpt: here
`lineEnd = 100` on a two-line file. -/
theorem c5_counterexample :
    createCitation tblB (str "g.yml") 1 100 none =
      some { path := str "g.yml", lineStart := 1, lineEnd := 100,
             excerpt := str "a\nb", reason := none } ∧
    fileB.lines.length = 2 := by
  constructor
  · decide
  · decide

/-- Claim C5 (amended): every search result carries a 1-based inclusive
range within the bounds of its file's stored line sequence, and its
excerpt is exactly those lines joined; a citation echoes the requested
range verbatim, so it satisfies the same invariant whenever the request
was within bounds — an out-of-bounds request can produce a citation
whose stored range exceeds the file (see the counterexample). -/
theorem c5_line_range_invariant :
    (∀ (table : List (Str × IndexedFile)) (q : Str) (n : Nat) (scope : SearchScope)
        (globs : Option (List Str)) (r : SearchResult),
      r ∈ search table q n scope globs →
        ∃ e ∈ table, e.2.relativePath = r.relativePath ∧
          1 ≤ r.lineStart ∧ r.lineStart ≤ r.lineEnd ∧ r.lineEnd ≤ e.2.lines.length ∧
          r.excerpt =
            joinWith [ '\n' ] ((e.2.lines.take r.lineEnd).drop (r.lineStart - 1))) ∧
    (∀ (table : List (Str × IndexedFile)) (rel : Str) (ls le : Int)
        (reason : Option Str) (file : IndexedFile) (c : Citation),
      mapGet table rel = some file → 1 ≤ ls → ls ≤ le →
        le ≤ (file.lines.length : Int) →
        createCitation table rel ls le reason = some c →
          c.lineStart = ls ∧ c.lineEnd = le ∧
          c.excerpt =
            joinWith [ '\n' ] ((file.lines.take le.toNat).drop (ls.toNat - 1))) := by
  constructor
  · intro table q n scope globs r hr
    obtain ⟨e, he, _, hfm⟩ := search_mem table q n scope globs r hr
    have hraw := rawResults_mem e.2 (queryTermsOf q) r (findMatches_sub_raw _ _ r hfm)
    exact ⟨e, he, hraw.2.1.symm, hraw.2.2.2.1, hraw.2.2.2.2.1, hraw.2.2.2.2.2.1,
      hraw.2.2.2.2.2.2⟩
  · intro table rel ls le reason file c hf h1 h2 h3 hsome
    have hslice : jsSlice file.lines (max 0 (ls - 1)) (min (file.lines.length : Int) le) =
        (file.lines.take le.toNat).drop (ls.toNat - 1) := by
      unfold jsSlice jsSliceIdx
      rw [if_neg (by omega), if_neg (by omega)]
      have hidx1 : min (min (file.lines.length : Int) le).toNat file.lines.length
          = le.toNat := by omega
      have hidx2 : min ((max 0 (ls - 1)) : Int).toNat file.lines.length
          = ls.toNat - 1 := by omega
      rw [hidx1, hidx2]
    by_cases hex : joinWith [ '\n' ]
        (jsSlice file.lines (max 0 (ls - 1)) (min (file.lines.length : Int) le)) = []
    · have := (createCitation_char table rel ls le reason file hf).2 hex
      rw [this] at hsome
      exact absurd hsome (by simp)
    · have := (createCitation_char table rel ls le reason file hf).1 hex
      rw [this] at hsome
      simp only [Option.some.injEq] at hsome
      rw [← hsome, hslice]
      exact ⟨rfl, rfl, rfl⟩

/-- Claim C5 witness. -/
theorem c5_witness :
    (∃ e ∈ tblA, e.2.relativePath = resA.relativePath ∧
      1 ≤ resA.lineStart ∧ resA.lineStart ≤ resA.lineEnd ∧
      resA.lineEnd ≤ e.2.lines.length ∧
      resA.excerpt =
        joinWith [ '\n' ] ((e.2.lines.take resA.lineEnd).drop (resA.lineStart - 1))) ∧
    (citB.lineStart = 1 ∧ citB.lineEnd = 2 ∧
      citB.excerpt =
        joinWith [ '\n' ] ((fileB.lines.take (2 : Int).toNat).drop ((1 : Int).toNat - 1))) := by
  constructor
  · have hs : search tblA (str "a") 8 .all none = [resA] := by with_unfolding_all rfl
    exact c5_line_range_invariant.1 tblA (str "a") 8 .all none resA
      (by rw [hs]; exact List.mem_singleton_self resA)
  · exact c5_line_range_invariant.2 tblB (str "g.yml") 1 2 none fileB citB
      (by decide) (by decide) (by decide) (by decide) (by decide)

theorem mem_mapSet (m : List (Str × α)) (k : Str) (v : α) (x : Str × α)
    (hx : x ∈ mapSet m k v) : x ∈ m ∨ x = (k, v) := by
  unfold mapSet at hx
  split at hx
  · obtain ⟨y, hy, hxy⟩ := List.mem_map.mp hx
    by_cases hk : y.1 = k
    · rw [if_pos hk] at hxy
      exact Or.inr hxy.symm
    · rw [if_neg hk] at hxy
      exact Or.inl (hxy ▸ hy)
  · rcases List.mem_append.mp hx with h | h
    · exact Or.inl h
    · exact Or.inr (List.mem_singleton.mp h)

theorem indexDir_files_types (inputs : List FileInput) (ty : FileType) :
    ∀ st : IndexState,
      (∀ e ∈ st.files, e.2.type = .fileExample ∨ e.2.type = .fileTemplate) →
      (ty = .fileExample ∨ ty = .fileTemplate) →
      ∀ e ∈ (indexDir st inputs ty).files,
        e.2.type = .fileExample ∨ e.2.type = .fileTemplate := by
  induction inputs with
  | nil => intro st hst _ e he; exact hst e he
  | cons i rest ih =>
    intro st hst hty e he
    refine ih (indexFileStep st i ty) ?_ hty e he
    intro e2 he2
    unfold indexFileStep at he2
    simp only [] at he2
    rcases mem_mapSet _ _ _ _ he2 with h | h
    · exact hst e2 h
    · rw [h]
      simp only [mkIndexedFile]
      exact hty

theorem initializeIndex_types (ex demo tmpl : List FileInput) :
    ∀ e ∈ (initializeIndex ex demo tmpl).files,
      e.2.type = .fileExample ∨ e.2.type = .fileTemplate := by
  intro e he
  unfold initializeIndex buildKeywordIndexStep at he
  simp only [] at he
  refine indexDir_files_types tmpl .fileTemplate _ ?_ (Or.inr rfl) e he
  refine indexDir_files_types demo .fileExample _ ?_ (Or.inl rfl)
  refine indexDir_files_types ex .fileExample _ ?_ (Or.inl rfl)
  intro e2 he2
  simp at he2

/-! ## Claim C9 -/

/-- Claim C9: `initialize` only ever registers files as `example` (the
examples and demo-questions roots) or `template` (the templates root),
so no file is classified `doc` or `other`; consequently `getStats`
always reports zero docs, and a search with scope `docs` filters out
every file and returns the empty list, whatever the query, limit and
globs. -/
theorem c9_no_docs (ex demo tmpl : List FileInput) :
    (∀ e ∈ (initializeIndex ex demo tmpl).files,
        e.2.type = .fileExample ∨ e.2.type = .fileTemplate) ∧
    (getStats (initializeIndex ex demo tmpl)).docs = 0 ∧
    (∀ (q : Str) (n : Nat) (globs : Option (List Str)),
        search (initializeIndex ex demo tmpl).files q n .docs globs = []) := by
  refine ⟨initializeIndex_types ex demo tmpl, ?_, ?_⟩
  · unfold getStats
    simp only []
    rw [List.length_eq_zero]
    rw [List.filter_eq_nil_iff]
    intro e he
    rcases initializeIndex_types ex demo tmpl e he with h | h <;> simp [h]
  · intro q n globs
    unfold search
    simp only []
    have hfil : (initializeIndex ex demo tmpl).files.filter (fun e =>
        matchesScope e.2.type .docs &&
          (match globs with
           | none => true
           | some gs => matchesGlobs e.1 gs)) = [] := by
      rw [List.filter_eq_nil_iff]
      intro e he
      rcases initializeIndex_types ex demo tmpl e he with h | h <;>
        simp [matchesScope, h]
    rw [hfil]
    simp [sortHits]

theorem indexDir_template_names (inputs : List FileInput) :
    ∀ st : IndexState,
      (indexDir st inputs .fileTemplate).examplesByName = st.examplesByName := by
  induction inputs with
  | nil => intro st; rfl
  | cons i rest ih =>
    intro st
    unfold indexDir at ih ⊢
    simp only [List.foldl_cons]
    rw [ih]
    unfold indexFileStep
    simp

theorem indexDir_example_names (inputs : List FileInput) :
    ∀ (st : IndexState) (b : Str),
      mapGet (indexDir st inputs .fileExample).examplesByName b =
        match (inputs.filter (fun i => baseNameOf i.path = b)).getLast? with
        | some i => some (mkIndexedFile i .fileExample)
        | none => mapGet st.examplesByName b := by
  induction inputs with
  | nil => intro st b; rfl
  | cons i rest ih =>
    intro st b
    unfold indexDir at ih ⊢
    simp only [List.foldl_cons]
    rw [ih]
    rw [List.filter_cons]
    by_cases hb : baseNameOf i.path = b
    · rw [if_pos (by simpa using hb)]
      cases hrest : (rest.filter (fun j => baseNameOf j.path = b)).getLast? with
      | some j =>
        cases hfil : rest.filter (fun j => baseNameOf j.path = b) with
        | nil => rw [hfil] at hrest; simp at hrest
        | cons x xs =>
          rw [hfil] at hrest
          rw [List.getLast?_cons_cons, hrest]
      | none =>
        cases hfil : rest.filter (fun j => baseNameOf j.path = b) with
        | cons x xs => rw [hfil] at hrest; simp [List.getLast?_eq_getLast] at hrest
        | nil =>
          simp only [List.getLast?_singleton]
          unfold indexFileStep
          simp only [if_true]
          rw [← hb]
          exact mapGet_mapSet_self st.examplesByName (baseNameOf i.path)
            (mkIndexedFile i .fileExample)
    · rw [if_neg (by simpa using hb)]
      cases hrest : (rest.filter (fun j => baseNameOf j.path = b)).getLast? with
      | some j => rfl
      | none =>
        unfold indexFileStep
        simp only [if_true]
        exact mapGet_mapSet_ne st.examplesByName (baseNameOf i.path) b
          (mkIndexedFile i .fileExample) (fun h => hb h.symm)

/-! ## Claim C10 -/

/-- Claim C10: the by-name example lookup keeps no per-name uniqueness —
each `indexFile` of an example overwrites the `examplesByName` entry for
its base name, so after `initialize` the lookup returns the file of the
last ingested example input (over the examples root followed by the
demo-questions root) whose base name matches; template files never touch
the by-name map. -/
theorem c10_last_example_wins (ex demo tmpl : List FileInput) (b : Str) :
    getExampleByName (initializeIndex ex demo tmpl) b =
      (((ex ++ demo).filter (fun i => baseNameOf i.path = b)).getLast?).map
        (fun i => mkIndexedFile i .fileExample) := by
  unfold getExampleByName initializeIndex buildKeywordIndexStep
  simp only []
  rw [indexDir_template_names]
  rw [indexDir_example_names]
  rw [List.filter_append]
  cases h1 : (demo.filter (fun i => baseNameOf i.path = b)).getLast? with
  | some j =>
    have hne : demo.filter (fun i => baseNameOf i.path = b) ≠ [] := by
      intro hc; rw [hc] at h1; simp at h1
    rw [List.getLast?_append_of_ne_nil _ hne, h1]
    rfl
  | none =>
    have hnil : demo.filter (fun i => baseNameOf i.path = b) = [] := by
      cases hfil : demo.filter (fun i => baseNameOf i.path = b) with
      | nil => rfl
      | cons x xs => rw [hfil] at h1; simp [List.getLast?_eq_getLast] at h1
    rw [hnil, List.append_nil]
    rw [indexDir_example_names]
    cases h2 : (ex.filter (fun i => baseNameOf i.path = b)).getLast? with
    | some j => rfl
    | none => rfl

/-! ## Claim C3 -/

/-- Claim C3, evaluated at the failing input: the glob `a**d` should let
the relative path `a/b/d` survive (the specification semantics
`specGlobMatch`, where `**` spans separators, accepts it), but the
code's translation chain first rewrites `**` to `.*` and then rewrites
the `*` inside that very `.*` to `[^/]*`, producing `a.[^/]*d`, which
cannot cross a `/`; the file is filtered out of a search that would
otherwise have returned its hit. -/
theorem c3_glob_translation_bug :
    matchesGlobs (str "a/b/d") [str "a**d"] = false ∧
    specGlobMatch (str "a**d") (str "a/b/d") = true ∧
    globToRegexStr (str "a**d") = str "a.[^/]*d" ∧
    search tblG (str "hello") 8 .all (some [str "a**d"]) = [] ∧
    findMatches gfile (queryTermsOf (str "hello")) ≠ [] := by
  with_unfolding_all decide

/-! ## Claim C8 -/

/-- Claim C8: `search` is not total — whenever some query term whose
`\b<term>\b` pattern is an invalid regular expression (e.g. `c++`)
occurs case-insensitively in a line of an in-scope file, the line loop
reaches the faulty `new RegExp` construction and the call throws before
returning any result.  `searchRaises` models exactly the reachability
of that throw for a call without `fileGlobs`. -/
theorem c8_search_throws (table : List (Str × IndexedFile)) (query : Str)
    (scope : SearchScope) (t : Str) (e : Str × IndexedFile) (line : Str)
    (ht : t ∈ queryTermsOf query) (hinv : regexValidTerm t = false)
    (he : e ∈ table) (hsc : matchesScope e.2.type scope = true)
    (hl : line ∈ e.2.lines) (hinc : jsIncludes (lowerStr line) t = true) :
    searchRaises table query scope = true := by
  unfold searchRaises
  refine List.any_eq_true.mpr ⟨e, List.mem_filter.mpr ⟨he, hsc⟩, ?_⟩
  refine List.any_eq_true.mpr ⟨line, hl, ?_⟩
  refine List.any_eq_true.mpr ⟨t, ht, ?_⟩
  rw [hinc, hinv]
  rfl

/-- Claim C8 witness: a corpus whose single example file contains
`c++`, searched for `c++`, throws. -/
theorem c8_witness : searchRaises tblC (str "c++") .examples = true := by
  exact c8_search_throws tblC (str "c++") .examples (str "c++")
    (str "c.yml", cppFile) (str "uses c++ here")
    (by with_unfolding_all decide) (by with_unfolding_all decide)
    (by with_unfolding_all decide) (by with_unfolding_all decide)
    (by with_unfolding_all decide) (by with_unfolding_all decide)

theorem pairwise_key_unique (l : List SearchResult)
    (hp : l.Pairwise (fun a b => hitKey a ≠ hitKey b)) :
    ∀ x ∈ l, ∀ y ∈ l, hitKey x = hitKey y → x = y := by
  induction l with
  | nil => intro x hx; simp at hx
  | cons a t ih =>
    rw [List.pairwise_cons] at hp
    intro x hx y hy hk
    rcases List.mem_cons.mp hx with h1 | h1 <;> rcases List.mem_cons.mp hy with h2 | h2
    · rw [h1, h2]
    · exact absurd (h1 ▸ hk) (hp.1 y h2)
    · exact absurd (h2 ▸ hk).symm (hp.1 x h1)
    · exact ih hp.2 x h1 y h2 hk

theorem findMatches_rel (f : IndexedFile) (ts : List Str) (r : SearchResult)
    (hr : r ∈ findMatches f ts) : r.relativePath = f.relativePath :=
  (rawResults_mem f ts r (findMatches_sub_raw f ts r hr)).2.1

theorem flatMap_key_pairwise (ts : List Str) :
    ∀ fs : List (Str × IndexedFile),
      (fs.map (fun e => e.2.relativePath)).Nodup →
      (fs.flatMap (fun e => findMatches e.2 ts)).Pairwise
        (fun a b => hitKey a ≠ hitKey b) := by
  intro fs
  induction fs with
  | nil => intro _; simp
  | cons e fs ih =>
    intro hnd
    rw [List.map_cons, List.nodup_cons] at hnd
    rw [List.flatMap_cons, List.pairwise_append]
    refine ⟨?_, ih hnd.2, ?_⟩
    · unfold findMatches
      exact dedupHits_keys_pairwise _ []
    · intro x hx y hy
      have hxr := findMatches_rel e.2 ts x hx
      obtain ⟨e2, he2, hy2⟩ := List.mem_flatMap.mp hy
      have hyr := findMatches_rel e2.2 ts y hy2
      intro hk
      have : x.relativePath = y.relativePath := congrArg Prod.fst hk
      rw [hxr, hyr] at this
      exact hnd.1 (this ▸ List.mem_map_of_mem (fun e => e.2.relativePath) he2)

/-! ## Claim C2 -/

/-- Claim C2: (i) the final list of every search call contains at most
one result per `(file, floor(lineStart / 10))` bucket — no two returned
results agree on both the relative path and the bucket of their window
start (given there are no duplicate relative paths in the table, as the
`Map` guarantees); (ii) per file, every pre-deduplication hit is
represented in `findMatches` by a surviving hit of its own bucket that
scores at least as high as every hit of that bucket — same-bucket hits
collapse to the single highest-scoring representative, hits of other
buckets are retained separately. -/
theorem c2_bucket_dedup :
    (∀ (table : List (Str × IndexedFile)) (q : Str) (n : Nat)
        (scope : SearchScope) (globs : Option (List Str)),
      (table.map (fun e => e.2.relativePath)).Nodup →
        (search table q n scope globs).Pairwise
          (fun a b => ¬(a.relativePath = b.relativePath ∧
            a.lineStart / 10 = b.lineStart / 10))) ∧
    (∀ (f : IndexedFile) (ts : List Str) (r : SearchResult),
      r ∈ rawResults f ts →
        ∃ q ∈ findMatches f ts,
          q.relativePath = r.relativePath ∧
          q.lineStart / 10 = r.lineStart / 10 ∧
          r.score ≤ q.score ∧
          ∀ r2 ∈ rawResults f ts,
            r2.relativePath = r.relativePath → r2.lineStart / 10 = r.lineStart / 10 →
              r2.score ≤ q.score) := by
  constructor
  · intro table q n scope globs hnd
    unfold search
    simp only []
    set fs := table.filter (fun e =>
        matchesScope e.2.type scope &&
          (match globs with
           | none => true
           | some gs => matchesGlobs e.1 gs)) with hfs
    set all := fs.flatMap (fun e => findMatches e.2 (queryTermsOf q)) with hallDef
    have hall : all.Pairwise (fun a b => hitKey a ≠ hitKey b) := by
      rw [hallDef]
      apply flatMap_key_pairwise
      rw [hfs]
      exact List.Nodup.sublist (List.Sublist.map _ (List.filter_sublist table)) hnd
    have hsorted : (sortHits all).Pairwise (fun a b => hitKey a ≠ hitKey b) := by
      refine (List.Perm.pairwise_iff ?_ (sortHits_perm all)).mpr hall
      exact fun h he => h he.symm
    have htake := List.Pairwise.sublist (List.take_sublist n (sortHits all)) hsorted
    exact htake.imp (fun hk hc => hk (Prod.ext hc.1 hc.2))
  · intro f ts r hr
    have hsorted := sortHits_pairwise (rawResults f ts)
    obtain ⟨q, hq, hqk, hqs⟩ := dedupHits_retain (sortHits (rawResults f ts)) []
      hsorted r ((mem_sortHits r _).mpr hr) (by simp)
    refine ⟨q, hq, congrArg Prod.fst hqk, congrArg Prod.snd hqk, hqs, ?_⟩
    intro r2 hr2 hrel2 hbk2
    obtain ⟨q2, hq2, hq2k, hq2s⟩ := dedupHits_retain (sortHits (rawResults f ts)) []
      hsorted r2 ((mem_sortHits r2 _).mpr hr2) (by simp)
    have hkk : hitKey q2 = hitKey q := by
      rw [hq2k, hqk]
      unfold hitKey
      rw [hrel2, hbk2]
    have : q2 = q := pairwise_key_unique _ (dedupHits_keys_pairwise _ []) q2 hq2 q hq hkk
    exact this ▸ hq2s

/-- Claim C2 witness. -/
theorem c2_witness :
    (search tblQ (str "question") 8 .examples none).Pairwise
      (fun a b => ¬(a.relativePath = b.relativePath ∧
        a.lineStart / 10 = b.lineStart / 10)) ∧
    (∃ q ∈ findMatches qfile [str "question"],
      q.relativePath = resQ.relativePath ∧
      q.lineStart / 10 = resQ.lineStart / 10 ∧
      resQ.score ≤ q.score ∧
      ∀ r2 ∈ rawResults qfile [str "question"],
        r2.relativePath = resQ.relativePath → r2.lineStart / 10 = resQ.lineStart / 10 →
          r2.score ≤ q.score) := by
  constructor
  · exact c2_bucket_dedup.1 tblQ (str "question") 8 .examples none (by decide)
  · exact c2_bucket_dedup.2 qfile [str "question"] resQ
      (by with_unfolding_all decide)

theorem titleBonus_nonneg (f : IndexedFile) (ts : List Str) : 0 ≤ titleBonus f ts := by
  unfold titleBonus
  cases f.metadata.title with
  | none => exact le_refl 0
  | some ttl => positivity

theorem titleBonus_le_single (f : IndexedFile) (t : Str) : titleBonus f [t] ≤ 15 := by
  unfold titleBonus
  cases f.metadata.title with
  | none => norm_num
  | some ttl =>
    simp only []
    have hlen : (List.filter (fun x => jsIncludes (lowerStr ttl) x) [t]).length ≤ 1 := by
      simp [List.filter_cons]
      split <;> simp
    have : ((List.filter (fun x => jsIncludes (lowerStr ttl) x) [t]).length : ℚ) ≤ 1 := by
      exact_mod_cast hlen
    nlinarith

theorem lineHit_some (f : IndexedFile) (total : Nat) (ts : List Str) (i : Nat)
    (line : Str) (hm : 0 < matchedCount (lowerStr line) ts) :
    ∃ r, lineHit f total ts i line = some r ∧ r.relativePath = f.relativePath ∧
      r.score = ts.foldl (fun s t => s + termScore (lowerStr line) t) 0 +
        (matchedCount (lowerStr line) ts : ℚ) / (total : ℚ) * 10 + titleBonus f ts := by
  unfold lineHit
  simp only []
  rw [if_pos hm]
  exact ⟨_, rfl, rfl, rfl⟩

theorem rawResults_qline (f : IndexedFile) (hline : str "question: |" ∈ f.lines) :
    ∃ r ∈ rawResults f [str "question"], 45 ≤ r.score ∧
      r.relativePath = f.relativePath := by
  obtain ⟨i, hi⟩ := List.mem_iff_get?.mp hline
  have hm : 0 < matchedCount (lowerStr (str "question: |")) [str "question"] := by
    decide
  obtain ⟨r, hr, hrel, hscore⟩ := lineHit_some f 1 [str "question"] i
    (str "question: |") hm
  refine ⟨r, ?_, ?_, hrel⟩
  · unfold rawResults
    exact List.mem_filterMap.mpr ⟨(i, str "question: |"),
      List.mem_enum_iff_get?.mpr hi, hr⟩
  · rw [hscore]
    have h1 : [str "question"].foldl
        (fun s t => s + termScore (lowerStr (str "question: |")) t) 0 = 35 := by
      with_unfolding_all decide
    have h2 : matchedCount (lowerStr (str "question: |")) [str "question"] = 1 := by
      decide
    rw [h1, h2]
    have h3 := titleBonus_nonneg f [str "question"]
    norm_num
    linarith

theorem rawResults_single_bound (f : IndexedFile)
    (hf : ∀ l ∈ f.lines, isPre (str "question:") (lowerStr l) = false) :
    ∀ r ∈ rawResults f [str "question"], r.score ≤ 40 := by
  intro r hr
  unfold rawResults at hr
  obtain ⟨p, hp, hmm⟩ := List.mem_filterMap.mp hr
  have hlmem : p.2 ∈ f.lines := by
    have hget : f.lines.get? p.1 = some p.2 := List.mem_enum_iff_get?.mp hp
    exact List.get?_mem hget
  unfold lineHit at hmm
  simp only [] at hmm
  split at hmm
  · rename_i hmatched
    have hm1 : matchedCount (lowerStr p.2) [str "question"] = 1 := by
      unfold matchedCount at hmatched ⊢
      rw [List.filter_cons] at hmatched ⊢
      split <;> simp_all
    have hts : termScore (lowerStr p.2) (str "question") ≤ 15 := by
      unfold termScore
      split
      · have hpre : isPre (str "question" ++ [ ':' ]) (lowerStr p.2) = false := by
          have : str "question" ++ [ ':' ] = str "question:" := by decide
          rw [this]
          exact hf p.2 hlmem
        simp only [hpre, Bool.false_eq_true, if_false]
        split <;> norm_num
      · norm_num
    have hfold : [str "question"].foldl
        (fun s t => s + termScore (lowerStr p.2) t) 0 =
        termScore (lowerStr p.2) (str "question") := by
      simp [List.foldl]
    simp only [Option.some.injEq] at hmm
    have hscore : r.score = [str "question"].foldl
        (fun s t => s + termScore (lowerStr p.2) t) 0 +
        (matchedCount (lowerStr p.2) [str "question"] : ℚ) /
          (([str "question"].length : Nat) : ℚ) * 10 +
        titleBonus f [str "question"] := by
      rw [← hmm]
    have htb := titleBonus_le_single f (str "question")
    rw [hscore, hfold, hm1]
    have hlen1 : (([str "question"].length : Nat) : ℚ) = 1 := by norm_num
    rw [hlen1]
    norm_num
    linarith
  · simp at hmm

theorem findMatches_top (f : IndexedFile) (ts : List Str) (r : SearchResult)
    (hr : r ∈ rawResults f ts) :
    ∃ q ∈ findMatches f ts, r.score ≤ q.score ∧ q.relativePath = f.relativePath := by
  cases hs : sortHits (rawResults f ts) with
  | nil =>
    have := (mem_sortHits r (rawResults f ts)).mpr hr
    rw [hs] at this
    simp at this
  | cons q0 rest =>
    have hq0raw : q0 ∈ rawResults f ts := by
      have : q0 ∈ sortHits (rawResults f ts) := by rw [hs]; exact List.mem_cons_self _ _
      exact (mem_sortHits q0 _).mp this
    refine ⟨q0, ?_, sortHits_head_max _ q0 rest hs r hr,
      (rawResults_mem f ts q0 hq0raw).2.1⟩
    unfold findMatches
    rw [hs]
    unfold dedupHits
    rw [if_neg (by simp)]
    exact List.mem_cons_self _ _

/-! ## Claim C7 -/

/-- Claim C7: on a two-file examples corpus where one file has a line
that is exactly `question: |` and the other contains the query word only
mid-line (never at a line start as `question:`), the search output is
sorted by descending score and contains a hit of the first file that
strictly outscores every hit of the second file — the +20
field-declaration boost (plus the +5 word-boundary boost, worth 45 with
coverage) beats the at most 10 + 5 + 10 + 15 = 40 a mid-line occurrence
can collect even with a title bonus. -/
theorem c7_field_declaration_ranked_first
    (f1 f2 : IndexedFile)
    (h1 : f1.type = .fileExample) (h2 : f2.type = .fileExample)
    (hrel : f1.relativePath ≠ f2.relativePath)
    (hline : str "question: |" ∈ f1.lines)
    (hmid : ∀ l ∈ f2.lines, isPre (str "question:") (lowerStr l) = false) :
    (search [(f1.relativePath, f1), (f2.relativePath, f2)] (str "question") 8
        .examples none).Pairwise (fun a b => b.score ≤ a.score) ∧
    ∃ r1 ∈ search [(f1.relativePath, f1), (f2.relativePath, f2)] (str "question") 8
        .examples none,
      r1.relativePath = f1.relativePath ∧
      ∀ r2 ∈ search [(f1.relativePath, f1), (f2.relativePath, f2)] (str "question") 8
          .examples none,
        r2.relativePath = f2.relativePath → r2.score < r1.score := by
  have hts : queryTermsOf (str "question") = [str "question"] := by decide
  have hsearch : search [(f1.relativePath, f1), (f2.relativePath, f2)]
      (str "question") 8 .examples none =
      (sortHits (findMatches f1 [str "question"] ++
        findMatches f2 [str "question"])).take 8 := by
    unfold search
    simp only [hts]
    simp [List.filter_cons, List.flatMap_cons, matchesScope, h1, h2]
  rw [hsearch]
  obtain ⟨r, hrraw, hrs, _⟩ := rawResults_qline f1 hline
  obtain ⟨q0, hq0, hq0s, hq0rel⟩ := findMatches_top f1 [str "question"] r hrraw
  have hq0all : q0 ∈ findMatches f1 [str "question"] ++
      findMatches f2 [str "question"] := List.mem_append_left _ hq0
  have hBbound : ∀ x ∈ findMatches f2 [str "question"], x.score ≤ 40 :=
    fun x hx => rawResults_single_bound f2 hmid x (findMatches_sub_raw _ _ x hx)
  cases hs : sortHits (findMatches f1 [str "question"] ++
      findMatches f2 [str "question"]) with
  | nil =>
    exfalso
    have := (mem_sortHits q0 _).mpr hq0all
    rw [hs] at this
    simp at this
  | cons h0 rest =>
    have hh0sort : h0 ∈ sortHits (findMatches f1 [str "question"] ++
        findMatches f2 [str "question"]) := by
      rw [hs]; exact List.mem_cons_self _ _
    have hh0all := (mem_sortHits h0 _).mp hh0sort
    have hh0score : 45 ≤ h0.score :=
      le_trans (le_trans hrs hq0s) (sortHits_head_max _ h0 rest hs q0 hq0all)
    have hh0A : h0 ∈ findMatches f1 [str "question"] := by
      rcases List.mem_append.mp hh0all with hA | hB
      · exact hA
      · have := hBbound h0 hB
        have h45 : (40 : ℚ) < 45 := by norm_num
        linarith
    have hh0rel : h0.relativePath = f1.relativePath :=
      findMatches_rel f1 [str "question"] h0 hh0A
    constructor
    · exact List.Pairwise.sublist (List.take_sublist 8 _)
        (hs ▸ sortHits_pairwise (findMatches f1 [str "question"] ++
          findMatches f2 [str "question"]))
    · refine ⟨h0, ?_, hh0rel, ?_⟩
      · rw [List.take_succ_cons]
        exact List.mem_cons_self _ _
      · intro r2 hr2 hrel2
        have hr2sort : r2 ∈ sortHits (findMatches f1 [str "question"] ++
            findMatches f2 [str "question"]) := hs.symm ▸ List.mem_of_mem_take hr2
        have hr2all := (mem_sortHits r2 _).mp hr2sort
        rcases List.mem_append.mp hr2all with hA | hB
        · have := findMatches_rel f1 [str "question"] r2 hA
          rw [hrel2] at this
          exact absurd this.symm hrel
        · have := hBbound r2 hB
          have h45 : (40 : ℚ) < 45 := by norm_num
          linarith

/-- Claim C7 witness: `qfile` (line `question: |`) vs `mfile`
(`a question about money`, title `Question Demo`). -/
theorem c7_witness :
    (search [(qfile.relativePath, qfile), (mfile.relativePath, mfile)]
        (str "question") 8 .examples none).Pairwise (fun a b => b.score ≤ a.score) ∧
    ∃ r1 ∈ search [(qfile.relativePath, qfile), (mfile.relativePath, mfile)]
        (str "question") 8 .examples none,
      r1.relativePath = qfile.relativePath ∧
      ∀ r2 ∈ search [(qfile.relativePath, qfile), (mfile.relativePath, mfile)]
          (str "question") 8 .examples none,
        r2.relativePath = mfile.relativePath → r2.score < r1.score := by
  exact c7_field_declaration_ranked_first qfile mfile rfl rfl (by decide)
    (by decide) (by decide)

theorem lastOr_cons (d : Char) (t : Str) (prev : Option Char) :
    lastOr prev (d :: t) = lastOr (some d) t := by
  unfold lastOr
  cases t with
  | nil => rfl
  | cons x xs =>
    rw [List.getLast?_cons_cons]
    cases h : (x :: xs).getLast? with
    | none => simp [List.getLast?_eq_getLast] at h
    | some y => rfl

theorem headChar_eq_head (s : Str) : headChar s = s.head? := by
  cases s <;> rfl

theorem headChar_drop (l : Str) (i : Nat) : headChar (l.drop i) = l.get? i := by
  rw [headChar_eq_head]
  simp [List.head?_drop]

theorem rmatch_lits (t : Str) (ts : List RTok) : ∀ (prev : Option Char) (s : Str),
    rmatch (t.map RTok.lit ++ ts) prev s =
      (isPre t s && rmatch ts (lastOr prev t) (s.drop t.length)) := by
  induction t with
  | nil =>
    intro prev s
    simp [isPre, lastOr]
  | cons c t ih =>
    intro prev s
    cases s with
    | nil =>
      simp only [List.map_cons, List.cons_append]
      rw [rmatch]
      simp [isPre]
    | cons d s =>
      simp only [List.map_cons, List.cons_append]
      rw [rmatch]
      rw [ih (some d) s]
      by_cases hcd : c = d
      · subst hcd
        rw [lastOr_cons]
        simp only [isPre, List.length_cons, List.drop_succ_cons]
        simp [Bool.and_assoc]
      · simp [isPre, hcd]

theorem rmatch_nil_toks (prev : Option Char) (s : Str) : rmatch [] prev s = true := by
  cases s <;> rw [rmatch]

theorem rmatch_wordB (ts : List RTok) (prev : Option Char) (s : Str) :
    rmatch (RTok.wordB :: ts) prev s =
      ((isWordOpt prev != isWordOpt (headChar s)) && rmatch ts prev s) := by
  cases s with
  | nil => rw [rmatch]
  | cons d s2 => rw [rmatch]

theorem rmatch_wb_lits (t : Str) (prev : Option Char) (s : Str) :
    rmatch (RTok.wordB :: t.map RTok.lit ++ [RTok.wordB]) prev s =
      ((isWordOpt prev != isWordOpt (headChar s)) && isPre t s &&
        (isWordOpt (lastOr prev t) != isWordOpt (headChar (s.drop t.length)))) := by
  rw [List.cons_append]
  rw [rmatch_wordB (t.map RTok.lit ++ [RTok.wordB]) prev s, rmatch_lits,
    rmatch_wordB [] (lastOr prev t) (s.drop t.length), rmatch_nil_toks]
  simp [Bool.and_assoc]

theorem rtestFrom_iff (ts : List RTok) : ∀ (s : Str) (prev : Option Char),
    rtestFrom ts prev s = true ↔
      ∃ i, i ≤ s.length ∧ rmatch ts (prevOf prev s i) (s.drop i) = true := by
  intro s
  induction s with
  | nil =>
    intro prev
    rw [rtestFrom]
    simp only [Bool.or_eq_true]
    constructor
    · intro h
      rcases h with h | h
      · exact ⟨0, le_refl 0, by simpa [prevOf] using h⟩
      · simp at h
    · rintro ⟨i, hi, hm⟩
      have : i = 0 := Nat.le_zero.mp hi
      subst this
      exact Or.inl (by simpa [prevOf] using hm)
  | cons c s ih =>
    intro prev
    rw [rtestFrom]
    simp only [Bool.or_eq_true]
    constructor
    · rintro (h | h)
      · exact ⟨0, by simp, by simpa [prevOf] using h⟩
      · obtain ⟨j, hj, hm⟩ := (ih (some c)).mp h
        refine ⟨j + 1, by simpa using Nat.succ_le_succ hj, ?_⟩
        have hp : prevOf prev (c :: s) (j + 1) = prevOf (some c) s j := by
          unfold prevOf
          cases j with
          | zero => simp
          | succ k => simp
        rw [hp]
        simpa using hm
    · rintro ⟨i, hi, hm⟩
      cases i with
      | zero =>
        exact Or.inl (by simpa [prevOf] using hm)
      | succ j =>
        refine Or.inr ((ih (some c)).mpr ⟨j, by simpa using Nat.le_of_succ_le_succ hi, ?_⟩)
        have hp : prevOf prev (c :: s) (j + 1) = prevOf (some c) s j := by
          unfold prevOf
          cases j with
          | zero => simp
          | succ k => simp
        rw [hp] at hm
        simpa using hm

theorem isPre_iff_append (p : Str) : ∀ s : Str, isPre p s = true ↔ ∃ r, s = p ++ r := by
  induction p with
  | nil => intro s; simp [isPre]
  | cons c p ih =>
    intro s
    cases s with
    | nil => simp [isPre]
    | cons d s2 =>
      rw [isPre]
      simp only [Bool.and_eq_true, decide_eq_true_eq]
      rw [ih s2]
      constructor
      · rintro ⟨hcd, r, hr⟩
        exact ⟨r, by rw [hcd, hr]; rfl⟩
      · rintro ⟨r, hr⟩
        simp only [List.cons_append, List.cons.injEq] at hr
        exact ⟨hr.1.symm, r, hr.2⟩

theorem isPre_getLast (t : Str) (ht : t ≠ []) (line : Str) (i : Nat)
    (h : isPre t (line.drop i) = true) :
    line.get? (i + t.length - 1) = t.getLast? := by
  obtain ⟨r, hr⟩ := (isPre_iff_append t _).mp h
  have h1 : line.get? (i + t.length - 1) = (line.drop i).get? (t.length - 1) := by
    have hlen : 0 < t.length := List.length_pos.mpr ht
    have : i + (t.length - 1) = i + t.length - 1 := by omega
    rw [← this]
    simp [List.getElem?_drop]
  rw [h1, hr]
  have hlt : t.length - 1 < t.length := by
    have := List.length_pos.mpr ht
    omega
  rw [List.get?_eq_getElem?, List.getElem?_append, if_pos hlt,
    List.getLast?_eq_get?, List.get?_eq_getElem?]

theorem termToks_plain (t : Str) (hp : plainTerm t = true) :
    termToks t = t.map RTok.lit := by
  unfold termToks
  apply List.map_congr_left
  intro c hc
  unfold plainTerm at hp
  simp only [Bool.and_eq_true, List.all_eq_true] at hp
  have hc2 := hp.2 c hc
  have hdot : ¬(c = '.') := by
    intro hcd
    subst hcd
    simp at hc2
  rw [if_neg hdot]

theorem plainTerm_ne_nil (t : Str) (hp : plainTerm t = true) : t ≠ [] := by
  unfold plainTerm at hp
  simp only [Bool.and_eq_true] at hp
  simpa using hp.1

theorem wb_pointwise (t : Str) (ht : t ≠ []) (line : Str) (i : Nat) :
    rmatch (RTok.wordB :: t.map RTok.lit ++ [RTok.wordB]) (prevOf none line i)
        (line.drop i) =
      (isPre t (line.drop i) && boundaryAt line i && boundaryAt line (i + t.length)) := by
  rw [rmatch_wb_lits]
  by_cases hpre : isPre t (line.drop i) = true
  · rw [hpre]
    have hb1 : (isWordOpt (prevOf none line i) != isWordOpt (headChar (line.drop i)))
        = boundaryAt line i := by
      rw [headChar_drop]
      rfl
    have hdrop : (line.drop i).drop t.length = line.drop (i + t.length) := by
      rw [List.drop_drop]
    have hglast : ∃ y, t.getLast? = some y := by
      cases t with
      | nil => exact absurd rfl ht
      | cons x xs => exact ⟨(x :: xs).getLast (by simp), List.getLast?_eq_getLast _ _⟩
    obtain ⟨y, hy⟩ := hglast
    have hlast : lastOr (prevOf none line i) t = line.get? (i + t.length - 1) := by
      unfold lastOr
      rw [hy]
      rw [isPre_getLast t ht line i hpre, hy]
    have hb2 : (isWordOpt (lastOr (prevOf none line i) t) !=
        isWordOpt (headChar ((line.drop i).drop t.length)))
        = boundaryAt line (i + t.length) := by
      rw [hdrop, headChar_drop, hlast]
      unfold boundaryAt prevCharAt
      have hnz : ¬(i + t.length = 0) := by
        have := List.length_pos.mpr ht
        omega
      rw [if_neg hnz]
    rw [hb1, hb2]
    cases boundaryAt line i <;> simp
  · have hf : isPre t (line.drop i) = false := Bool.eq_false_iff.mpr hpre
    rw [hf]
    simp

theorem wbTest_plain (t : Str) (hp : plainTerm t = true) (line : Str) :
    wbTest t line = specWB t line := by
  have ht : t ≠ [] := plainTerm_ne_nil t hp
  rw [Bool.eq_iff_iff]
  unfold wbTest rtest
  rw [termToks_plain t hp]
  rw [rtestFrom_iff]
  unfold specWB
  rw [List.any_eq_true]
  constructor
  · rintro ⟨i, hi, hm⟩
    rw [wb_pointwise t ht line i] at hm
    exact ⟨i, List.mem_range.mpr (by omega), hm⟩
  · rintro ⟨i, hir, hf⟩
    have hi : i ≤ line.length := by
      have := List.mem_range.mp hir
      omega
    exact ⟨i, hi, by rw [wb_pointwise t ht line i]; exact hf⟩

theorem foldl_add_shift (ll : Str) : ∀ (ts : List Str) (a : ℚ),
    ts.foldl (fun s t => s + termScore ll t) a =
      a + ts.foldl (fun s t => s + termScore ll t) 0 := by
  intro ts
  induction ts with
  | nil => intro a; simp
  | cons t ts ih =>
    intro a
    simp only [List.foldl_cons]
    rw [ih (a + termScore ll t), ih (0 + termScore ll t)]
    ring

theorem foldl_termScore (ll : Str) : ∀ ts : List Str,
    ts.foldl (fun s t => s + termScore ll t) 0 =
      10 * ((ts.filter (fun t => jsIncludes ll t)).length : ℚ) +
      20 * ((ts.filter (fun t => jsIncludes ll t && isPre (t ++ [ ':' ]) ll)).length : ℚ) +
      5 * ((ts.filter (fun t => jsIncludes ll t && wbTest t ll)).length : ℚ) := by
  intro ts
  induction ts with
  | nil => simp
  | cons t ts ih =>
    simp only [List.foldl_cons]
    rw [foldl_add_shift ll ts, ih]
    simp only [List.filter_cons]
    unfold termScore
    by_cases h1 : jsIncludes ll t = true
    · simp only [h1, if_true, Bool.true_and]
      by_cases h2 : isPre (t ++ [ ':' ]) ll = true
      · simp only [h2, if_true]
        by_cases h3 : wbTest t ll = true
        · simp only [h3, if_true, List.length_cons]
          push_cast
          ring
        · have h3f : wbTest t ll = false := Bool.eq_false_iff.mpr h3
          simp only [h3f, Bool.false_eq_true, if_false, List.length_cons]
          push_cast
          ring
      · have h2f : isPre (t ++ [ ':' ]) ll = false := Bool.eq_false_iff.mpr h2
        simp only [h2f, Bool.false_eq_true, if_false]
        by_cases h3 : wbTest t ll = true
        · simp only [h3, if_true, List.length_cons]
          push_cast
          ring
        · have h3f : wbTest t ll = false := Bool.eq_false_iff.mpr h3
          simp only [h3f, Bool.false_eq_true, if_false, List.length_cons]
          push_cast
          ring
    · have h1f : jsIncludes ll t = false := Bool.eq_false_iff.mpr h1
      simp only [h1f, Bool.false_eq_true, if_false, Bool.false_and]
      push_cast
      ring

/-! ## Claim C1 -/

/-- Claim C1 counterexample: the claim, as stated, quantifies over all
queries with pairwise-distinct terms, and is false for terms containing
regex metacharacters, because the term text is spliced unescaped into
the word-boundary pattern. Query `a.c` (a single term, trivially
distinct) on the line `xa.c abc`: the code's `\ba.c\b` matcher reads
`.` as the wildcard and matches the phantom occurrence `abc`, awarding
the +5 word-boundary bonus, so the code scores the line
10 + 5 + (1/1)·10 = 25; the claim's formula denies the bonus — the only
literal occurrence of `a.c` sits after the word character `x`, not at a
word boundary — and yields 10 + (1/1)·10 = 20. -/
theorem c1_counterexample :
    (queryTermsOf (str "a.c")).Nodup ∧
    lineHit dotFile (queryTermsOf (str "a.c")).length (queryTermsOf (str "a.c"))
        0 (str "xa.c abc") =
      some { path := str "/repo/d.yml", relativePath := str "d.yml",
             lineStart := 1, lineEnd := 1, excerpt := str "xa.c abc",
             score := 25, type := .fileExample } ∧
    claimHitScore dotFile (queryTermsOf (str "a.c")) (str "xa.c abc") = 20 ∧
    (25 : ℚ) ≠ 20 := by
  refine ⟨by decide, ?_, ?_, by norm_num⟩ <;> with_unfolding_all decide

/-- Claim C1 (amended): restricted to queries whose whitespace-split
terms are pairwise distinct and consist only of regex-literal characters
(`plainTerm`), so that the code's unescaped `\bterm\b` matcher treats
the term text literally, the hit score `findMatches` assigns to a line
is exactly the claimed formula: 10 per term occurring in the lowercased
line, 20 more per such term the line starts with as `term:`, 5 more per
such term occurring at a word boundary, the coverage bonus
`(matched / total) * 10` once, and 15 per term occurring in the
lowercased title when one is present; a line matching no term produces
no hit. For terms with metacharacters the unescaped pattern diverges:
an invalid pattern such as `c++` throws before any score (C8), and a
valid one such as `a.c` can earn the word-boundary bonus through a
phantom match (the counterexample above). -/
theorem c1_hit_score_formula (file : IndexedFile) (query : Str) (i : Nat) (line : Str)
    (hnd : (queryTermsOf query).Nodup)
    (hpl : ∀ t ∈ queryTermsOf query, plainTerm t = true)
    (hline : file.lines.get? i = some line) :
    ((∀ t ∈ queryTermsOf query, jsIncludes (lowerStr line) t = false) →
      lineHit file (queryTermsOf query).length (queryTermsOf query) i line = none) ∧
    ((∃ t ∈ queryTermsOf query, jsIncludes (lowerStr line) t = true) →
      ∃ r, lineHit file (queryTermsOf query).length (queryTermsOf query) i line
          = some r ∧
        r.score = claimHitScore file (queryTermsOf query) line) := by
  constructor
  · intro hnone
    have hm0 : matchedCount (lowerStr line) (queryTermsOf query) = 0 := by
      unfold matchedCount
      rw [List.length_eq_zero, List.filter_eq_nil_iff]
      intro t htm
      simp [hnone t htm]
    unfold lineHit
    simp only []
    rw [hm0]
    simp
  · rintro ⟨t0, ht0, hinc⟩
    have hmpos : 0 < matchedCount (lowerStr line) (queryTermsOf query) := by
      unfold matchedCount
      have hmem : t0 ∈ (queryTermsOf query).filter
          (fun t => jsIncludes (lowerStr line) t) :=
        List.mem_filter.mpr ⟨ht0, hinc⟩
      exact List.length_pos.mpr (fun hnil => by rw [hnil] at hmem; simp at hmem)
    obtain ⟨r, hr, _, hscore⟩ := lineHit_some file (queryTermsOf query).length
      (queryTermsOf query) i line hmpos
    refine ⟨r, hr, ?_⟩
    rw [hscore]
    unfold claimHitScore
    simp only []
    rw [foldl_termScore]
    have hfeq : (queryTermsOf query).filter
        (fun t => jsIncludes (lowerStr line) t && wbTest t (lowerStr line)) =
        (queryTermsOf query).filter
        (fun t => jsIncludes (lowerStr line) t && specWB t (lowerStr line)) := by
      apply List.filter_congr
      intro t htm
      rw [wbTest_plain t (hpl t htm)]
    rw [hfeq]
    unfold titleBonus
    ring

/-- Claim C1 witness. -/
theorem c1_witness :
    ∃ r, lineHit qfile (queryTermsOf (str "question")).length
        (queryTermsOf (str "question")) 0 (str "question: |") = some r ∧
      r.score = claimHitScore qfile (queryTermsOf (str "question"))
        (str "question: |") := by
  exact (c1_hit_score_formula qfile (str "question") 0 (str "question: |")
      (by decide) (by decide) (by decide)).2
    ⟨str "question", by decide, by decide⟩
